import Mathlib

/-
Verification of the web-coloring raster pipeline.

Shallow embedding of the core of the repository:
  - src/components/CanvasEditor.js : isLineBoundary, floodFill, handleWheel,
    fitToScreen, handleStart, handleMove, handleEnd, getCoords
  - the line-art processing module : the binarization loop of
    createHighQualityLineArt, and applyDilation

Pixel buffers are modelled as flat RGBA functions (index to channel value),
exactly as the JavaScript code addresses ImageData (pos = (y*width+x)*4).
Coordinates that may go negative are modelled as integers; real-valued
interaction coordinates are modelled as rationals (the code performs exact
IEEE arithmetic on small decimal steps; the spec states its transform
properties in exact real arithmetic).
-/

namespace WebColoring

/-! ## Viewport transform (CanvasEditor.js handleWheel / fitToScreen) -/

structure Viewport where
  zoom : ℚ
  panX : ℚ
  panY : ℚ
deriving DecidableEq

/-- Embedding of Math.sign as used by handleWheel on e.deltaY. -/
def jsSign (q : ℚ) : ℚ :=
  if 0 < q then 1 else if q < 0 then -1 else 0

/-- Embedding of CanvasEditor.handleWheel: step the zoom by one 0.1 step
towards the wheel direction, clamp to the range 0.1 to 5, and when the zoom
changes recompute the pan so the content point under the mouse stays put. -/
def handleWheel (v : Viewport) (deltaY mouseX mouseY : ℚ) : Viewport :=
  let delta := -(jsSign deltaY)
  let newZoom := max 0.1 (min 5 (v.zoom + delta * 0.1))
  if newZoom = v.zoom then v
  else
    let renderX := (mouseX - v.panX) / v.zoom
    let renderY := (mouseY - v.panY) / v.zoom
    { zoom := newZoom
      panX := mouseX - renderX * newZoom
      panY := mouseY - renderY * newZoom }

/-- Inverse of the screen transform, spec 4.4: screenToContent. -/
def screenToContent (v : Viewport) (sx sy : ℚ) : ℚ × ℚ :=
  ((sx - v.panX) / v.zoom, (sy - v.panY) / v.zoom)

/-- Embedding of CanvasEditor.fitToScreen (padding is the literal 40 of the
source; the zoom is capped at 0.9 and the content is centered). -/
def fitToScreen (wrapperW wrapperH contentW contentH : ℚ) : Viewport :=
  let padding : ℚ := 40
  let availableWidth := wrapperW - padding
  let availableHeight := wrapperH - padding
  let scaleX := availableWidth / contentW
  let scaleY := availableHeight / contentH
  let zoom := min (min scaleX scaleY) 0.9
  { zoom := zoom
    panX := (wrapperW - contentW * zoom) / 2
    panY := (wrapperH - contentH * zoom) / 2 }

/-! ## Binarization (createHighQualityLineArt, step 1) -/

/-- Luminance formula of the binarization loop. -/
def luminance (r g b : ℕ) : ℚ :=
  0.299 * r + 0.587 * g + 0.114 * b

/-- Embedding of step 1 of createHighQualityLineArt: every pixel becomes
pure black (0) when its luminance is strictly below the threshold and pure
white (255) otherwise, and the alpha channel is forced to 255.  The loop
walks the flat RGBA buffer in strides of 4; pointwise, output index i
belongs to the pixel whose base index is 4*(i/4). -/
def binarize (threshold : ℚ) (data : ℕ → ℕ) : ℕ → ℕ := fun i =>
  let base := 4 * (i / 4)
  if i % 4 = 3 then 255
  else if luminance (data base) (data (base + 1)) (data (base + 2)) < threshold then 0
  else 255

/-- Scenario buffer of spec 8, scenario B: pixel 0 is gray level 150
(luminance 150), every other pixel is gray level 220 (luminance 220),
all alpha channels 255. -/
def scenarioB : ℕ → ℕ := fun i =>
  if i % 4 = 3 then 255 else if i / 4 = 0 then 150 else 220

/-! ## Morphological dilation (applyDilation) -/

/-- Embedding of the four channel writes output[nIdx..nIdx+3] performed by
the dilation (and flood fill) loops on a flat RGBA buffer. -/
def stamp (v0 v1 v2 v3 base : ℕ) (d : ℕ → ℕ) : ℕ → ℕ := fun i =>
  if i = base then v0
  else if i = base + 1 then v1
  else if i = base + 2 then v2
  else if i = base + 3 then v3
  else d i

/-- Embedding of the circular kernel construction of applyDilation: all
offsets (dx, dy) with dx*dx + dy*dy at most radius squared, built scanning
dy in the outer loop and dx in the inner loop. -/
def kernel (radius : ℕ) : List (ℤ × ℤ) :=
  ((List.range (2 * radius + 1)).map fun (j : ℕ) =>
    (List.range (2 * radius + 1)).filterMap fun (i : ℕ) =>
      if ((i : ℤ) - radius) * ((i : ℤ) - radius) + ((j : ℤ) - radius) * ((j : ℤ) - radius)
          ≤ (radius : ℤ) * radius then
        some ((i : ℤ) - radius, (j : ℤ) - radius)
      else none).flatten

/-- Embedding of the inner kernel loop of applyDilation for one black source
pixel (x, y): every in-bounds neighbour within the kernel receives pure
black with alpha 255 in the output buffer. -/
def writeKernelAt (w h radius x y : ℕ) (o : ℕ → ℕ) : ℕ → ℕ :=
  (kernel radius).foldl (fun o d =>
    if 0 ≤ (x : ℤ) + d.1 ∧ (x : ℤ) + d.1 < w ∧ 0 ≤ (y : ℤ) + d.2 ∧ (y : ℤ) + d.2 < h then
      stamp 0 0 0 255 ((((y : ℤ) + d.2).toNat * w + ((x : ℤ) + d.1).toNat) * 4) o
    else o) o

/-- Embedding of the double scan loop of applyDilation over one black
source pixel at a time: for each scanned pixel that is black in the
read-only input buffer, its whole kernel neighbourhood is written black in
the output. -/
def dilationPass (w h radius : ℕ) (data : ℕ → ℕ) (scan : List (ℕ × ℕ)) : ℕ → ℕ :=
  scan.foldl (fun out p =>
    if data ((p.2 * w + p.1) * 4) = 0 then writeKernelAt w h radius p.1 p.2 out else out) data

/-- Row-major scan order of the applyDilation loops (y outer, x inner). -/
def scanOrder (w h : ℕ) : List (ℕ × ℕ) :=
  ((List.range h).map fun (y : ℕ) => (List.range w).map fun (x : ℕ) => (x, y)).flatten

/-- Embedding of applyDilation of the line-art processing module: the output
starts as a copy of the input and every pixel black in the input spreads
black to its whole in-bounds kernel disk in the output; only the input is
ever read. -/
def applyDilation (w h radius : ℕ) (data : ℕ → ℕ) : ℕ → ℕ :=
  dilationPass w h radius data (scanOrder w h)

/-- Embedding of the pixel pipeline of createHighQualityLineArt: binarize,
then dilate when the radius is positive.  The dilation loop inlined in
createHighQualityLineArt differs from applyDilation only in not rewriting
the alpha channel, which binarize has already forced to 255, so the two
coincide on binarized input. -/
def createHighQualityLineArt (threshold : ℚ) (dilationRadius w h : ℕ)
    (data : ℕ → ℕ) : ℕ → ℕ :=
  if 0 < dilationRadius then applyDilation w h dilationRadius (binarize threshold data)
  else binarize threshold data

/-! ## Fill engine (CanvasEditor.js isLineBoundary / floodFill) -/

/-- Dimensions and boundary bitmap of the loaded line art: lineArt is the
flat RGBA boundaryData buffer produced by createHighQualityLineArt.  The
canvas of the editor is created with exactly these dimensions. -/
structure FillCtx where
  width : ℕ
  height : ℕ
  lineArt : ℕ → ℕ

/-- Embedding of CanvasEditor.isLineBoundary: out-of-range coordinates are
boundary, otherwise a pixel is boundary exactly when the red channel of the
line art is 0 at that position. -/
def isLineBoundary (ctx : FillCtx) (x y : ℤ) : Bool :=
  if x < 0 ∨ (ctx.width : ℤ) ≤ x ∨ y < 0 ∨ (ctx.height : ℤ) ≤ y then true
  else decide (ctx.lineArt ((y.toNat * ctx.width + x.toNat) * 4) = 0)

/-- pixelIndex of the flood fill: y * width + x. -/
def pixIdx (ctx : FillCtx) (p : ℤ × ℤ) : ℕ :=
  p.2.toNat * ctx.width + p.1.toNat

/-- Flat RGBA position of a pixel: pixelIndex * 4. -/
def pixPos (ctx : FillCtx) (p : ℤ × ℤ) : ℕ :=
  pixIdx ctx p * 4

/-- Embedding of the colorMatches closure of floodFill: each of the three
color channels at the given flat position differs from the corresponding
target channel by at most the tolerance 32 (the alpha channel at pos+3 is
not compared). -/
def colorMatch (data : ℕ → ℕ) (tR tG tB pos : ℕ) : Prop :=
  ((data pos : ℤ) - tR).natAbs ≤ 32
  ∧ ((data (pos + 1) : ℤ) - tG).natAbs ≤ 32
  ∧ ((data (pos + 2) : ℤ) - tB).natAbs ≤ 32

instance (data : ℕ → ℕ) (tR tG tB pos : ℕ) : Decidable (colorMatch data tR tG tB pos) := by
  unfold colorMatch
  infer_instance

/-- Embedding of the breadth-first worklist loop of floodFill.  The queue is
shifted from the front and pushed at the back exactly as in the source; a
popped coordinate is dropped when out of bounds or already visited, marked
visited, and accepted (position appended to the fill list, four neighbours
enqueued) when it is neither a boundary pixel nor a color mismatch.  The
source loop runs until the queue empties; here an explicit fuel bounds the
iteration count and floodFill passes fuel proven sufficient (the measure
queue length plus five times the unvisited-cell count strictly decreases at
every iteration). -/
def bfs (ctx : FillCtx) (data : ℕ → ℕ) (tR tG tB : ℕ) :
    ℕ → List (ℤ × ℤ) → Finset ℕ → List ℕ → List ℕ
  | _, [], _, acc => acc
  | 0, _ :: _, _, acc => acc
  | fuel + 1, (x, y) :: rest, visited, acc =>
    if x < 0 ∨ (ctx.width : ℤ) ≤ x ∨ y < 0 ∨ (ctx.height : ℤ) ≤ y then
      bfs ctx data tR tG tB fuel rest visited acc
    else if y.toNat * ctx.width + x.toNat ∈ visited then
      bfs ctx data tR tG tB fuel rest visited acc
    else if isLineBoundary ctx x y then
      bfs ctx data tR tG tB fuel rest (insert (y.toNat * ctx.width + x.toNat) visited) acc
    else if colorMatch data tR tG tB ((y.toNat * ctx.width + x.toNat) * 4) then
      bfs ctx data tR tG tB fuel
        (rest ++ [(x + 1, y), (x - 1, y), (x, y + 1), (x, y - 1)])
        (insert (y.toNat * ctx.width + x.toNat) visited)
        (acc ++ [(y.toNat * ctx.width + x.toNat) * 4])
    else
      bfs ctx data tR tG tB fuel rest (insert (y.toNat * ctx.width + x.toNat) visited) acc

/-- Ghost companion of bfs returning the final visited set instead of the
fill list; it branches identically to bfs and is used only in proofs. -/
def bfsV (ctx : FillCtx) (data : ℕ → ℕ) (tR tG tB : ℕ) :
    ℕ → List (ℤ × ℤ) → Finset ℕ → Finset ℕ
  | _, [], visited => visited
  | 0, _ :: _, visited => visited
  | fuel + 1, (x, y) :: rest, visited =>
    if x < 0 ∨ (ctx.width : ℤ) ≤ x ∨ y < 0 ∨ (ctx.height : ℤ) ≤ y then
      bfsV ctx data tR tG tB fuel rest visited
    else if y.toNat * ctx.width + x.toNat ∈ visited then
      bfsV ctx data tR tG tB fuel rest visited
    else if isLineBoundary ctx x y then
      bfsV ctx data tR tG tB fuel rest (insert (y.toNat * ctx.width + x.toNat) visited)
    else if colorMatch data tR tG tB ((y.toNat * ctx.width + x.toNat) * 4) then
      bfsV ctx data tR tG tB fuel
        (rest ++ [(x + 1, y), (x - 1, y), (x, y + 1), (x, y - 1)])
        (insert (y.toNat * ctx.width + x.toNat) visited)
    else
      bfsV ctx data tR tG tB fuel rest (insert (y.toNat * ctx.width + x.toNat) visited)

/-- Number of in-bounds pixel indexes not yet visited. -/
def unvis (ctx : FillCtx) (visited : Finset ℕ) : ℕ :=
  ((Finset.range (ctx.width * ctx.height)).filter (fun i => i ∉ visited)).card

/-- Fuel sufficient for the whole worklist loop from the initial state. -/
def fillFuel (ctx : FillCtx) : ℕ :=
  1 + 5 * (ctx.width * ctx.height)

/-- Uint8ClampedArray stores of channel values clamp at 255. -/
def clamp8 (v : ℕ) : ℕ :=
  min v 255

/-- The pixelsToFill list computed by floodFill from a seed: the worklist
traversal seeded with the start coordinate, with the target color read from
the seed position of the buffer before any mutation. -/
def fillPixels (ctx : FillCtx) (data : ℕ → ℕ) (sx sy : ℤ) : List ℕ :=
  bfs ctx data
    (data ((sy.toNat * ctx.width + sx.toNat) * 4))
    (data ((sy.toNat * ctx.width + sx.toNat) * 4 + 1))
    (data ((sy.toNat * ctx.width + sx.toNat) * 4 + 2))
    (fillFuel ctx) [(sx, sy)] ∅ []

/-- Embedding of CanvasEditor.floodFill: no-op when the (rounded) seed is a
boundary or out of range, no-op when the seed pixel already equals the fill
color with alpha 255, otherwise every traversed pixel is committed to the
fill color with alpha 255 in one batch after the traversal.  The fill color
arrives as three parsed hex channels. -/
def floodFill (ctx : FillCtx) (data : ℕ → ℕ) (startX startY : ℤ)
    (fR fG fB : ℕ) : ℕ → ℕ :=
  if isLineBoundary ctx startX startY then data
  else if data ((startY.toNat * ctx.width + startX.toNat) * 4) = fR
      ∧ data ((startY.toNat * ctx.width + startX.toNat) * 4 + 1) = fG
      ∧ data ((startY.toNat * ctx.width + startX.toNat) * 4 + 2) = fB
      ∧ data ((startY.toNat * ctx.width + startX.toNat) * 4 + 3) = 255 then data
  else if fillPixels ctx data startX startY = [] then data
  else (fillPixels ctx data startX startY).foldl
    (fun d pos => stamp (clamp8 fR) (clamp8 fG) (clamp8 fB) 255 pos d) data

/-- A coordinate is inside the surface bounds. -/
def inB (ctx : FillCtx) (p : ℤ × ℤ) : Prop :=
  0 ≤ p.1 ∧ p.1 < ctx.width ∧ 0 ≤ p.2 ∧ p.2 < ctx.height

/-- 4-connectivity: q is one of the four neighbours floodFill enqueues. -/
def adjacent (p q : ℤ × ℤ) : Prop :=
  q = (p.1 + 1, p.2) ∨ q = (p.1 - 1, p.2) ∨ q = (p.1, p.2 + 1) ∨ q = (p.1, p.2 - 1)

/-- A pixel the traversal accepts: in bounds and not a boundary (the
boundary test subsumes the bounds test) and color-matching the target. -/
def goodPix (ctx : FillCtx) (data : ℕ → ℕ) (tR tG tB : ℕ) (p : ℤ × ℤ) : Prop :=
  isLineBoundary ctx p.1 p.2 = false ∧ colorMatch data tR tG tB (pixPos ctx p)

/-- A pixel that is not a boundary pixel (hence in bounds). -/
def nonBoundary (ctx : FillCtx) (p : ℤ × ℤ) : Prop :=
  isLineBoundary ctx p.1 p.2 = false

/-- Reachability from the seed by a 4-connected path whose every step
leaves a pixel satisfying the predicate good. -/
inductive ReachVia (good : ℤ × ℤ → Prop) (seed : ℤ × ℤ) : ℤ × ℤ → Prop
  | refl : ReachVia good seed seed
  | step {p q : ℤ × ℤ} :
      ReachVia good seed p → good p → adjacent p q → ReachVia good seed q

/-! ## Tool controller (CanvasEditor.js handleStart / handleMove / handleEnd) -/

/-- Squared distance from the point (qx, qy) to the segment from (x0, y0)
to (x1, y1), via the clamped projection onto the segment. -/
def distSqToSegment (qx qy x0 y0 x1 y1 : ℚ) : ℚ :=
  let dx := x1 - x0
  let dy := y1 - y0
  let len2 := dx * dx + dy * dy
  let t := if len2 = 0 then 0 else ((qx - x0) * dx + (qy - y0) * dy) / len2
  let tc := max 0 (min 1 t)
  let cx := x0 + tc * dx
  let cy := y0 + tc * dy
  (qx - cx) * (qx - cx) + (qy - cy) * (qy - cy)

/-- Modelled from the spec: the stroke rasterization that handleMove
delegates to the canvas lineTo and stroke primitives, which are platform
code absent from the repository.  Spec 4.5 states that an interaction-move
rasterizes a connected segment from the previous to the current point with
the active color (round caps) and active width; the model paints every
pixel of the surface whose integer sample point lies within brushSize/2 of
the segment, with alpha 255.  No boundary mask is consulted, exactly as in
handleMove. -/
def strokeSegment (w h : ℕ) (d : ℕ → ℕ) (x0 y0 x1 y1 brushSize : ℚ)
    (r g b : ℕ) : ℕ → ℕ := fun i =>
  if (i / 4) / w < h
      ∧ distSqToSegment ((i / 4) % w : ℕ) ((i / 4) / w : ℕ) x0 y0 x1 y1
        ≤ (brushSize / 2) * (brushSize / 2) then
    (if i % 4 = 0 then clamp8 r else if i % 4 = 1 then clamp8 g
     else if i % 4 = 2 then clamp8 b else 255)
  else d i

/-- The four tool modes of CanvasEditor. -/
inductive Mode
  | brush
  | fill
  | eraser
  | pan
deriving DecidableEq

/-- A pointer event: the button value and the client coordinates. -/
structure PointerEv where
  button : ℕ
  clientX : ℚ
  clientY : ℚ

/-- The session state of CanvasEditor that the interaction handlers touch.
The surface is the flat RGBA buffer of the drawing canvas; fillCalls,
strokeCalls and notifyCount are instrumentation counting floodFill
invocations, stroke segment rasterizations and onUpdate notifications. -/
structure EditorState where
  mode : Mode
  currentR : ℕ
  currentG : ℕ
  currentB : ℕ
  brushSize : ℚ
  isDrawing : Bool
  isPanning : Bool
  zoom : ℚ
  panX : ℚ
  panY : ℚ
  startPanX : ℚ
  startPanY : ℚ
  lastX : ℚ
  lastY : ℚ
  strokeR : ℕ
  strokeG : ℕ
  strokeB : ℕ
  lineArt : FillCtx
  surface : ℕ → ℕ
  fillCalls : ℕ
  strokeCalls : ℕ
  notifyCount : ℕ

/-- Embedding of CanvasEditor.getCoords: the canvas rectangle has origin at
the pan offset and scale equal to the zoom, so client coordinates map to
content coordinates by subtracting the pan and dividing by the zoom. -/
def getCoords (s : EditorState) (e : PointerEv) : ℚ × ℚ :=
  ((e.clientX - s.panX) / s.zoom, (e.clientY - s.panY) / s.zoom)

/-- Embedding of Math.round as applied to the fill seed: floor of q + 1/2. -/
def jsRound (q : ℚ) : ℤ :=
  ⌊q + 1 / 2⌋

/-- Embedding of CanvasEditor.handleStart: pan mode or the middle button
(value 1) begins a pan drag and nothing else; fill mode performs a one-shot
flood fill at the mapped coordinate (right button erases with white);
brush and eraser begin a stroke at the mapped coordinate for buttons other
than the right one (the eraser stroke color is forced to white). -/
def handleStart (s : EditorState) (e : PointerEv) : EditorState :=
  if s.mode = Mode.pan ∨ e.button = 1 then
    { s with isPanning := true
             startPanX := e.clientX - s.panX
             startPanY := e.clientY - s.panY }
  else if s.mode = Mode.fill then
    { s with isDrawing := false
             surface := floodFill s.lineArt s.surface
               (jsRound (getCoords s e).1) (jsRound (getCoords s e).2)
               (if e.button = 2 then 255 else s.currentR)
               (if e.button = 2 then 255 else s.currentG)
               (if e.button = 2 then 255 else s.currentB)
             fillCalls := s.fillCalls + 1 }
  else if e.button = 2 then
    { s with isDrawing := true }
  else
    { s with isDrawing := true
             lastX := (getCoords s e).1
             lastY := (getCoords s e).2
             strokeR := if s.mode = Mode.eraser then 255 else s.currentR
             strokeG := if s.mode = Mode.eraser then 255 else s.currentG
             strokeB := if s.mode = Mode.eraser then 255 else s.currentB }

/-- Embedding of CanvasEditor.handleMove: while panning, the pan tracks the
pointer against the recorded anchor and nothing else happens; otherwise a
move outside a stroke, or in fill mode, does nothing; otherwise the segment
from the previous point to the current mapped point is rasterized. -/
def handleMove (s : EditorState) (e : PointerEv) : EditorState :=
  if s.isPanning then
    { s with panX := e.clientX - s.startPanX
             panY := e.clientY - s.startPanY }
  else if ¬ s.isDrawing = true ∨ s.mode = Mode.fill then s
  else
    { s with surface := strokeSegment s.lineArt.width s.lineArt.height s.surface
               s.lastX s.lastY (getCoords s e).1 (getCoords s e).2 s.brushSize
               s.strokeR s.strokeG s.strokeB
             lastX := (getCoords s e).1
             lastY := (getCoords s e).2
             strokeCalls := s.strokeCalls + 1 }

/-- Embedding of CanvasEditor.handleEnd: clears the drag flags and always
notifies the onUpdate persistence callback. -/
def handleEnd (s : EditorState) : EditorState :=
  { s with isPanning := false
           isDrawing := false
           notifyCount := s.notifyCount + 1 }

/-- The pointer event stream consumed by the controller. -/
inductive InputEv
  | start (e : PointerEv)
  | move (e : PointerEv)
  | finish

/-- Dispatch of one input event to the matching handler. -/
def stepEvent (s : EditorState) : InputEv → EditorState
  | .start e => handleStart s e
  | .move e => handleMove s e
  | .finish => handleEnd s

/-- Run of a whole interaction event sequence. -/
def runEvents (s : EditorState) (evs : List InputEv) : EditorState :=
  evs.foldl stepEvent s

/-- Recognizer of interaction-end events. -/
def isFinish : InputEv → Bool
  | .finish => true
  | _ => false

/-! ## Concrete fixtures for witnesses and counterexamples -/

/-- A 3 by 3 all-open line art (no boundary pixel). -/
def ctx3 : FillCtx :=
  ⟨3, 3, fun _ => 255⟩

/-- A 3 by 3 line art whose only boundary pixel is (1, 1). -/
def ctxB : FillCtx :=
  ⟨3, 3, fun i => if i = 16 then 0 else 255⟩

/-- An all-white opaque surface. -/
def whiteSurf : ℕ → ℕ := fun _ => 255

/-- A 3 by 3 buffer whose only black pixel is (1, 1). -/
def oneBlack : ℕ → ℕ := fun i =>
  if i = 16 then 0 else 255

/-- A quiescent editor state in pan mode over the open 3 by 3 artwork. -/
def panState : EditorState where
  mode := Mode.pan
  currentR := 200
  currentG := 0
  currentB := 0
  brushSize := 2
  isDrawing := false
  isPanning := false
  zoom := 1
  panX := 0
  panY := 0
  startPanX := 0
  startPanY := 0
  lastX := 0
  lastY := 0
  strokeR := 200
  strokeG := 0
  strokeB := 0
  lineArt := ctx3
  surface := whiteSurf
  fillCalls := 0
  strokeCalls := 0
  notifyCount := 0

/-- A mid-stroke brush state over the artwork whose pixel (1, 1) is a
boundary pixel: the current path point is (0, 1), the brush width 2. -/
def brushState : EditorState :=
  { panState with mode := Mode.brush
                  isDrawing := true
                  lastX := 0
                  lastY := 1
                  lineArt := ctxB }

/-! ## Theorems -/

theorem stamp_apply (v0 v1 v2 v3 base : ℕ) (d : ℕ → ℕ) (hb : base % 4 = 0) (i : ℕ) :
    stamp v0 v1 v2 v3 base d i =
      if 4 * (i / 4) = base then
        (if i % 4 = 0 then v0 else if i % 4 = 1 then v1 else if i % 4 = 2 then v2 else v3)
      else d i := by
  unfold stamp
  split_ifs <;> first | rfl | omega

theorem abs_le_of_mul_self_le {a r : ℤ} (hr : 0 ≤ r) (h : a * a ≤ r * r) :
    -r ≤ a ∧ a ≤ r := by
  constructor <;> nlinarith

theorem mem_kernel (radius : ℕ) (d : ℤ × ℤ) :
    d ∈ kernel radius ↔ d.1 * d.1 + d.2 * d.2 ≤ (radius : ℤ) * radius := by
  obtain ⟨d1, d2⟩ := d
  constructor
  · intro h
    obtain ⟨l, hl, hdl⟩ := List.mem_flatten.mp h
    obtain ⟨j, hj, rfl⟩ := List.mem_map.mp hl
    obtain ⟨i, hi, hsome⟩ := List.mem_filterMap.mp hdl
    split at hsome
    · next hcond =>
      obtain ⟨rfl, rfl⟩ := Prod.mk.inj (Option.some.inj hsome)
      simpa using hcond
    · exact absurd hsome (by simp)
  · intro h
    simp only at h
    have h1 : d1 * d1 ≤ (radius : ℤ) * radius :=
      le_trans (le_add_of_nonneg_right (mul_self_nonneg _)) h
    have h2 : d2 * d2 ≤ (radius : ℤ) * radius :=
      le_trans (le_add_of_nonneg_left (mul_self_nonneg _)) h
    obtain ⟨hd1l, hd1r⟩ := abs_le_of_mul_self_le (Int.natCast_nonneg radius) h1
    obtain ⟨hd2l, hd2r⟩ := abs_le_of_mul_self_le (Int.natCast_nonneg radius) h2
    have hjm : (d2 + radius).toNat ∈ List.range (2 * radius + 1) :=
      List.mem_range.mpr (by omega)
    have him : (d1 + radius).toNat ∈ List.range (2 * radius + 1) :=
      List.mem_range.mpr (by omega)
    apply List.mem_flatten.mpr
    refine ⟨_, List.mem_map.mpr ⟨(d2 + radius).toNat, hjm, rfl⟩, ?_⟩
    apply List.mem_filterMap.mpr
    refine ⟨(d1 + radius).toNat, him, ?_⟩
    have e1 : (((d1 + radius).toNat : ℤ)) - radius = d1 := by omega
    have e2 : (((d2 + radius).toNat : ℤ)) - radius = d2 := by omega
    rw [e1, e2, if_pos h]

theorem writeKernel_foldl_apply (w h : ℕ) (x y : ℕ) (L : List (ℤ × ℤ)) (o : ℕ → ℕ) (i : ℕ) :
    (L.foldl (fun o d =>
      if 0 ≤ (x : ℤ) + d.1 ∧ (x : ℤ) + d.1 < w ∧ 0 ≤ (y : ℤ) + d.2 ∧ (y : ℤ) + d.2 < h then
        stamp 0 0 0 255 ((((y : ℤ) + d.2).toNat * w + ((x : ℤ) + d.1).toNat) * 4) o
      else o) o) i =
    if ∃ d ∈ L, (0 ≤ (x : ℤ) + d.1 ∧ (x : ℤ) + d.1 < w ∧ 0 ≤ (y : ℤ) + d.2 ∧ (y : ℤ) + d.2 < h)
        ∧ 4 * (i / 4) = ((((y : ℤ) + d.2).toNat * w + ((x : ℤ) + d.1).toNat) * 4) then
      (if i % 4 = 3 then 255 else 0)
    else o i := by
  induction L generalizing o with
  | nil => simp
  | cons a L ih =>
    rw [List.foldl_cons, ih]
    by_cases ha : (0 ≤ (x : ℤ) + a.1 ∧ (x : ℤ) + a.1 < w ∧ 0 ≤ (y : ℤ) + a.2 ∧ (y : ℤ) + a.2 < h)
        ∧ 4 * (i / 4) = ((((y : ℤ) + a.2).toNat * w + ((x : ℤ) + a.1).toNat) * 4)
    · have hcov : ∃ d ∈ a :: L,
          (0 ≤ (x : ℤ) + d.1 ∧ (x : ℤ) + d.1 < w ∧ 0 ≤ (y : ℤ) + d.2 ∧ (y : ℤ) + d.2 < h)
          ∧ 4 * (i / 4) = ((((y : ℤ) + d.2).toNat * w + ((x : ℤ) + d.1).toNat) * 4) :=
        ⟨a, List.mem_cons_self a L, ha⟩
      rw [if_pos hcov]
      by_cases hL : ∃ d ∈ L,
          (0 ≤ (x : ℤ) + d.1 ∧ (x : ℤ) + d.1 < w ∧ 0 ≤ (y : ℤ) + d.2 ∧ (y : ℤ) + d.2 < h)
          ∧ 4 * (i / 4) = ((((y : ℤ) + d.2).toNat * w + ((x : ℤ) + d.1).toNat) * 4)
      · rw [if_pos hL]
      · rw [if_neg hL, if_pos ha.1,
          stamp_apply _ _ _ _ _ _ (Nat.mul_mod_left _ 4) i, if_pos ha.2]
        split_ifs <;> first | rfl | omega
    · by_cases hL : ∃ d ∈ L,
          (0 ≤ (x : ℤ) + d.1 ∧ (x : ℤ) + d.1 < w ∧ 0 ≤ (y : ℤ) + d.2 ∧ (y : ℤ) + d.2 < h)
          ∧ 4 * (i / 4) = ((((y : ℤ) + d.2).toNat * w + ((x : ℤ) + d.1).toNat) * 4)
      · have hcov : ∃ d ∈ a :: L,
            (0 ≤ (x : ℤ) + d.1 ∧ (x : ℤ) + d.1 < w ∧ 0 ≤ (y : ℤ) + d.2 ∧ (y : ℤ) + d.2 < h)
            ∧ 4 * (i / 4) = ((((y : ℤ) + d.2).toNat * w + ((x : ℤ) + d.1).toNat) * 4) := by
          obtain ⟨d, hd, hcd⟩ := hL
          exact ⟨d, List.mem_cons_of_mem a hd, hcd⟩
        rw [if_pos hL, if_pos hcov]
      · have hnc : ¬ ∃ d ∈ a :: L,
            (0 ≤ (x : ℤ) + d.1 ∧ (x : ℤ) + d.1 < w ∧ 0 ≤ (y : ℤ) + d.2 ∧ (y : ℤ) + d.2 < h)
            ∧ 4 * (i / 4) = ((((y : ℤ) + d.2).toNat * w + ((x : ℤ) + d.1).toNat) * 4) := by
          rintro ⟨d, hd, hcd⟩
          rcases List.mem_cons.mp hd with rfl | hdL
          · exact ha hcd
          · exact hL ⟨d, hdL, hcd⟩
        rw [if_neg hL, if_neg hnc]
        by_cases hab : 0 ≤ (x : ℤ) + a.1 ∧ (x : ℤ) + a.1 < w
            ∧ 0 ≤ (y : ℤ) + a.2 ∧ (y : ℤ) + a.2 < h
        · rw [if_pos hab, stamp_apply _ _ _ _ _ _ (Nat.mul_mod_left _ 4) i, if_neg ?_]
          intro hcontra
          exact ha ⟨hab, hcontra⟩
        · rw [if_neg hab]

theorem writeKernelAt_apply (w h radius x y : ℕ) (o : ℕ → ℕ) (i : ℕ) :
    writeKernelAt w h radius x y o i =
    if ∃ d ∈ kernel radius,
        (0 ≤ (x : ℤ) + d.1 ∧ (x : ℤ) + d.1 < w ∧ 0 ≤ (y : ℤ) + d.2 ∧ (y : ℤ) + d.2 < h)
        ∧ 4 * (i / 4) = ((((y : ℤ) + d.2).toNat * w + ((x : ℤ) + d.1).toNat) * 4) then
      (if i % 4 = 3 then 255 else 0)
    else o i :=
  writeKernel_foldl_apply w h x y (kernel radius) o i

/-- C3: for every source buffer and threshold, binarization sets each output
pixel to pure black exactly when its luminance 0.299R + 0.587G + 0.114B is
strictly below the threshold and to pure white otherwise, forces alpha to
255, produces no intermediate channel value, and on the scenario-B image
with threshold 200 marks exactly the single luminance-150 pixel black. -/
theorem c3_binarize_pure_binary :
    (∀ (t : ℚ) (data : ℕ → ℕ) (p : ℕ),
      binarize t data (4 * p) =
        (if luminance (data (4 * p)) (data (4 * p + 1)) (data (4 * p + 2)) < t then 0 else 255)
      ∧ binarize t data (4 * p + 1) =
        (if luminance (data (4 * p)) (data (4 * p + 1)) (data (4 * p + 2)) < t then 0 else 255)
      ∧ binarize t data (4 * p + 2) =
        (if luminance (data (4 * p)) (data (4 * p + 1)) (data (4 * p + 2)) < t then 0 else 255)
      ∧ binarize t data (4 * p + 3) = 255)
    ∧ (∀ (t : ℚ) (data : ℕ → ℕ) (i : ℕ),
        binarize t data i = 0 ∨ binarize t data i = 255)
    ∧ (∀ p : ℕ, (binarize 200 scenarioB (4 * p) = 0 ↔ p = 0)) := by
  refine ⟨fun t data p => ?_, fun t data i => ?_, fun p => ?_⟩
  · have h0 : (4 * p) % 4 = 0 := by omega
    have h1 : (4 * p + 1) % 4 = 1 := by omega
    have h2 : (4 * p + 2) % 4 = 2 := by omega
    have h3 : (4 * p + 3) % 4 = 3 := by omega
    have e0 : 4 * ((4 * p) / 4) = 4 * p := by omega
    have e1 : 4 * ((4 * p + 1) / 4) = 4 * p := by omega
    have e2 : 4 * ((4 * p + 2) / 4) = 4 * p := by omega
    refine ⟨?_, ?_, ?_, ?_⟩ <;>
      simp only [binarize, h0, h1, h2, h3, e0, e1, e2] <;> norm_num
  · unfold binarize
    dsimp only
    split
    · right; rfl
    · split
      · left; rfl
      · right; rfl
  · constructor
    · intro h
      by_contra hp
      have h3 : (4 * p) % 4 = 0 := by omega
      have e0 : 4 * ((4 * p) / 4) = 4 * p := by omega
      have hb : scenarioB (4 * p) = 220 := by
        simp only [scenarioB, h3]
        have : (4 * p) / 4 = p := by omega
        simp [this, hp]
      have hb1 : scenarioB (4 * p + 1) = 220 := by
        have hm : (4 * p + 1) % 4 = 1 := by omega
        have hd : (4 * p + 1) / 4 = p := by omega
        simp [scenarioB, hm, hd, hp]
      have hb2 : scenarioB (4 * p + 2) = 220 := by
        have hm : (4 * p + 2) % 4 = 2 := by omega
        have hd : (4 * p + 2) / 4 = p := by omega
        simp [scenarioB, hm, hd, hp]
      rw [binarize] at h
      simp only [h3, e0, hb, hb1, hb2] at h
      norm_num [luminance] at h
    · rintro rfl
      have hb : scenarioB 0 = 150 := by norm_num [scenarioB]
      have hb1 : scenarioB 1 = 150 := by norm_num [scenarioB]
      have hb2 : scenarioB 2 = 150 := by norm_num [scenarioB]
      rw [binarize]
      norm_num [hb, hb1, hb2, luminance]

/-- C6: a wheel event steps the zoom by one 0.1 step in the wheel direction
clamped to the range 0.1 to 5, the update is a complete no-op when the
clamped zoom equals the current zoom, and otherwise (indeed always) the
content point under the mouse before the step is still under the mouse
after it, exactly, in rational arithmetic. -/
theorem c6_handleWheel_anchor_preserving :
    ∀ (v : Viewport) (deltaY sx sy : ℚ),
      (handleWheel v deltaY sx sy).zoom
          = max 0.1 (min 5 (v.zoom + -(jsSign deltaY) * 0.1))
      ∧ (max 0.1 (min 5 (v.zoom + -(jsSign deltaY) * 0.1)) = v.zoom →
          handleWheel v deltaY sx sy = v)
      ∧ screenToContent (handleWheel v deltaY sx sy) sx sy = screenToContent v sx sy := by
  intro v deltaY sx sy
  have hz : (0 : ℚ) < max 0.1 (min 5 (v.zoom + -(jsSign deltaY) * 0.1)) :=
    lt_of_lt_of_le (by norm_num) (le_max_left _ _)
  refine ⟨?_, ?_, ?_⟩
  · rw [handleWheel]
    split
    · next h => exact h.symm
    · rfl
  · intro h
    rw [handleWheel, if_pos h]
  · rw [handleWheel]
    split
    · rfl
    · next h =>
      have hne : max 0.1 (min 5 (v.zoom + -(jsSign deltaY) * 0.1)) ≠ 0 := ne_of_gt hz
      simp only [screenToContent, Prod.mk.injEq]
      constructor <;>
        · rw [sub_sub_cancel, mul_div_assoc, div_self hne, mul_one]

/-- C8 (amended): after every wheel zoom step the zoom lies in the clamped
range 0.1 to 5, and fitToScreen always produces a zoom of at most 0.9; but
fitToScreen imposes no lower clamp, so the invariant of the claim fails for
it (see the counterexample). -/
theorem c8_zoom_range_amended :
    (∀ (v : Viewport) (deltaY sx sy : ℚ),
      0.1 ≤ (handleWheel v deltaY sx sy).zoom ∧ (handleWheel v deltaY sx sy).zoom ≤ 5)
    ∧ (∀ wrapperW wrapperH contentW contentH : ℚ,
        (fitToScreen wrapperW wrapperH contentW contentH).zoom ≤ 0.9) := by
  constructor
  · intro v deltaY sx sy
    have hlo : (0.1 : ℚ) ≤ max 0.1 (min 5 (v.zoom + -(jsSign deltaY) * 0.1)) :=
      le_max_left _ _
    have hhi : max 0.1 (min 5 (v.zoom + -(jsSign deltaY) * 0.1)) ≤ 5 :=
      max_le (by norm_num) (min_le_left _ _)
    rw [handleWheel]
    split
    · next h => exact ⟨h ▸ hlo, h ▸ hhi⟩
    · exact ⟨hlo, hhi⟩
  · intro a b c d
    exact min_le_right _ _

/-- C8 counterexample: a 200 by 200 container with a 10000 by 10000 artwork
drives fitToScreen to zoom 0.016, strictly below the claimed lower bound
0.1: the zoom is not always within the clamped range. -/
theorem c8_fitToScreen_below_clamp_counterexample :
    (fitToScreen 200 200 10000 10000).zoom < 0.1 := by
  have hz : (fitToScreen 200 200 10000 10000).zoom = 2 / 125 := by
    norm_num [fitToScreen]
  rw [hz]
  norm_num

theorem rowmajor_inj {w x1 y1 x2 y2 : ℕ} (h1 : x1 < w) (h2 : x2 < w)
    (he : y1 * w + x1 = y2 * w + x2) : x1 = x2 ∧ y1 = y2 := by
  have hw : 0 < w := by omega
  have he2 : x1 + y1 * w = x2 + y2 * w := by
    rw [Nat.add_comm x1 (y1 * w), Nat.add_comm x2 (y2 * w)]
    exact he
  have hx : x1 = x2 := by
    have m1 : (x1 + y1 * w) % w = x1 := by
      rw [Nat.add_mul_mod_self_right, Nat.mod_eq_of_lt h1]
    have m2 : (x2 + y2 * w) % w = x2 := by
      rw [Nat.add_mul_mod_self_right, Nat.mod_eq_of_lt h2]
    rw [← m1, ← m2, he2]
  refine ⟨hx, ?_⟩
  subst hx
  have hmul : y1 * w = y2 * w := by omega
  exact Nat.eq_of_mul_eq_mul_right hw hmul

theorem mem_scanOrder (w h : ℕ) (p : ℕ × ℕ) :
    p ∈ scanOrder w h ↔ p.1 < w ∧ p.2 < h := by
  obtain ⟨a, b⟩ := p
  constructor
  · intro hmem
    obtain ⟨l, hl, hal⟩ := List.mem_flatten.mp hmem
    obtain ⟨y, hy, rfl⟩ := List.mem_map.mp hl
    obtain ⟨x, hx, hxy⟩ := List.mem_map.mp hal
    obtain ⟨rfl, rfl⟩ := Prod.mk.inj hxy
    exact ⟨List.mem_range.mp hx, List.mem_range.mp hy⟩
  · rintro ⟨ha, hb⟩
    exact List.mem_flatten.mpr ⟨_, List.mem_map.mpr ⟨b, List.mem_range.mpr hb, rfl⟩,
      List.mem_map.mpr ⟨a, List.mem_range.mpr ha, rfl⟩⟩

theorem dilationPass_foldl_apply (w h radius : ℕ) (data : ℕ → ℕ)
    (scan : List (ℕ × ℕ)) (out : ℕ → ℕ) (i : ℕ) :
    (scan.foldl (fun out p =>
      if data ((p.2 * w + p.1) * 4) = 0 then writeKernelAt w h radius p.1 p.2 out
      else out) out) i =
    if ∃ p ∈ scan, data ((p.2 * w + p.1) * 4) = 0
        ∧ ∃ d ∈ kernel radius,
          (0 ≤ (p.1 : ℤ) + d.1 ∧ (p.1 : ℤ) + d.1 < w
            ∧ 0 ≤ (p.2 : ℤ) + d.2 ∧ (p.2 : ℤ) + d.2 < h)
          ∧ 4 * (i / 4) = ((((p.2 : ℤ) + d.2).toNat * w + ((p.1 : ℤ) + d.1).toNat) * 4) then
      (if i % 4 = 3 then 255 else 0)
    else out i := by
  induction scan generalizing out with
  | nil => simp
  | cons a L ih =>
    rw [List.foldl_cons, ih]
    by_cases hL : ∃ p ∈ L, data ((p.2 * w + p.1) * 4) = 0
        ∧ ∃ d ∈ kernel radius,
          (0 ≤ (p.1 : ℤ) + d.1 ∧ (p.1 : ℤ) + d.1 < w
            ∧ 0 ≤ (p.2 : ℤ) + d.2 ∧ (p.2 : ℤ) + d.2 < h)
          ∧ 4 * (i / 4) = ((((p.2 : ℤ) + d.2).toNat * w + ((p.1 : ℤ) + d.1).toNat) * 4)
    · have hcov : ∃ p ∈ a :: L, data ((p.2 * w + p.1) * 4) = 0
          ∧ ∃ d ∈ kernel radius,
            (0 ≤ (p.1 : ℤ) + d.1 ∧ (p.1 : ℤ) + d.1 < w
              ∧ 0 ≤ (p.2 : ℤ) + d.2 ∧ (p.2 : ℤ) + d.2 < h)
            ∧ 4 * (i / 4) = ((((p.2 : ℤ) + d.2).toNat * w + ((p.1 : ℤ) + d.1).toNat) * 4) := by
        obtain ⟨p, hp, hcp⟩ := hL
        exact ⟨p, List.mem_cons_of_mem a hp, hcp⟩
      rw [if_pos hL, if_pos hcov]
    · rw [if_neg hL]
      by_cases hblack : data ((a.2 * w + a.1) * 4) = 0
      · rw [if_pos hblack, writeKernelAt_apply]
        by_cases hd : ∃ d ∈ kernel radius,
            (0 ≤ (a.1 : ℤ) + d.1 ∧ (a.1 : ℤ) + d.1 < w
              ∧ 0 ≤ (a.2 : ℤ) + d.2 ∧ (a.2 : ℤ) + d.2 < h)
            ∧ 4 * (i / 4) = ((((a.2 : ℤ) + d.2).toNat * w + ((a.1 : ℤ) + d.1).toNat) * 4)
        · have hcons : ∃ p ∈ a :: L, data ((p.2 * w + p.1) * 4) = 0
              ∧ ∃ d ∈ kernel radius,
                (0 ≤ (p.1 : ℤ) + d.1 ∧ (p.1 : ℤ) + d.1 < w
                  ∧ 0 ≤ (p.2 : ℤ) + d.2 ∧ (p.2 : ℤ) + d.2 < h)
                ∧ 4 * (i / 4)
                    = ((((p.2 : ℤ) + d.2).toNat * w + ((p.1 : ℤ) + d.1).toNat) * 4) :=
            ⟨a, List.mem_cons_self a L, hblack, hd⟩
          rw [if_pos hd, if_pos hcons]
        · rw [if_neg hd, if_neg ?_]
          rintro ⟨p, hp, hcp⟩
          rcases List.mem_cons.mp hp with rfl | hpL
          · exact hd hcp.2
          · exact hL ⟨p, hpL, hcp⟩
      · rw [if_neg hblack, if_neg ?_]
        rintro ⟨p, hp, hcp⟩
        rcases List.mem_cons.mp hp with rfl | hpL
        · exact hblack hcp.1
        · exact hL ⟨p, hpL, hcp⟩

/-- C4: a pixel is black after dilation exactly when some input pixel within
the Euclidean disk of the radius was black in the pre-dilation buffer
(clipped at the image edges), and the result of the single read-only pass
does not depend on the scan order: any scan enumerating exactly the
in-bounds pixels produces the identical output buffer. -/
theorem c4_applyDilation_disk :
    ∀ (w h radius : ℕ) (data : ℕ → ℕ) (x y : ℕ),
      0 < radius → x < w → y < h →
      ((applyDilation w h radius data ((y * w + x) * 4) = 0 ↔
        ∃ dx dy : ℤ, dx * dx + dy * dy ≤ (radius : ℤ) * radius
          ∧ 0 ≤ (x : ℤ) + dx ∧ (x : ℤ) + dx < w ∧ 0 ≤ (y : ℤ) + dy ∧ (y : ℤ) + dy < h
          ∧ data ((((y : ℤ) + dy).toNat * w + ((x : ℤ) + dx).toNat) * 4) = 0)
      ∧ ∀ scan : List (ℕ × ℕ), (∀ p : ℕ × ℕ, p ∈ scan ↔ p.1 < w ∧ p.2 < h) →
          dilationPass w h radius data scan = applyDilation w h radius data) := by
  intro w h radius data x y hr hx hy
  have hidiv : ((y * w + x) * 4) / 4 = y * w + x := Nat.mul_div_cancel _ (by norm_num)
  have himod : ((y * w + x) * 4) % 4 = 0 := Nat.mul_mod_left _ 4
  constructor
  · rw [show applyDilation w h radius data ((y * w + x) * 4)
        = dilationPass w h radius data (scanOrder w h) ((y * w + x) * 4) from rfl,
      show dilationPass w h radius data (scanOrder w h) ((y * w + x) * 4)
        = ((scanOrder w h).foldl (fun out p =>
            if data ((p.2 * w + p.1) * 4) = 0 then writeKernelAt w h radius p.1 p.2 out
            else out) data) ((y * w + x) * 4) from rfl,
      dilationPass_foldl_apply]
    by_cases hcov : ∃ p ∈ scanOrder w h, data ((p.2 * w + p.1) * 4) = 0
        ∧ ∃ d ∈ kernel radius,
          (0 ≤ (p.1 : ℤ) + d.1 ∧ (p.1 : ℤ) + d.1 < w
            ∧ 0 ≤ (p.2 : ℤ) + d.2 ∧ (p.2 : ℤ) + d.2 < h)
          ∧ 4 * (((y * w + x) * 4) / 4)
              = ((((p.2 : ℤ) + d.2).toNat * w + ((p.1 : ℤ) + d.1).toNat) * 4)
    · rw [if_pos hcov, himod]
      norm_num
      obtain ⟨p, hpmem, hblack, d, hdmem, hbnd, heq⟩ := hcov
      obtain ⟨hp1, hp2⟩ := (mem_scanOrder w h p).mp hpmem
      rw [hidiv] at heq
      have heq2 : y * w + x = ((p.2 : ℤ) + d.2).toNat * w + ((p.1 : ℤ) + d.1).toNat := by
        have h4 : 4 * (y * w + x)
            = 4 * (((p.2 : ℤ) + d.2).toNat * w + ((p.1 : ℤ) + d.1).toNat) := by
          rw [heq, Nat.mul_comm]
        exact Nat.eq_of_mul_eq_mul_left (by norm_num) h4
      have htx : ((p.1 : ℤ) + d.1).toNat < w := by omega
      obtain ⟨hxeq, hyeq⟩ := rowmajor_inj hx htx heq2
      have hx1 : (x : ℤ) = (p.1 : ℤ) + d.1 := by omega
      have hy1 : (y : ℤ) = (p.2 : ℤ) + d.2 := by omega
      refine ⟨-d.1, -d.2, ?_, by omega, by omega, by omega, by omega, ?_⟩
      · have := (mem_kernel radius d).mp hdmem
        nlinarith [this]
      · have e1 : ((x : ℤ) + -d.1).toNat = p.1 := by omega
        have e2 : ((y : ℤ) + -d.2).toNat = p.2 := by omega
        rw [e1, e2]
        exact hblack
    · rw [if_neg hcov]
      constructor
      · intro hself
        refine ⟨0, 0, ?_, by omega, by omega, by omega, by omega, ?_⟩
        · have : (0 : ℤ) ≤ (radius : ℤ) * radius :=
            mul_nonneg (Int.natCast_nonneg _) (Int.natCast_nonneg _)
          omega
        · have e1 : ((x : ℤ) + 0).toNat = x := by omega
          have e2 : ((y : ℤ) + 0).toNat = y := by omega
          rw [e1, e2]
          exact hself
      · rintro ⟨dx, dy, hdisk, h0x, hxw, h0y, hyh, hdata⟩
        exfalso
        apply hcov
        refine ⟨(((x : ℤ) + dx).toNat, ((y : ℤ) + dy).toNat), ?_, hdata, (-dx, -dy), ?_, ?_, ?_⟩
        · exact (mem_scanOrder w h _).mpr ⟨by omega, by omega⟩
        · apply (mem_kernel radius _).mpr
          show -dx * -dx + -dy * -dy ≤ (radius : ℤ) * radius
          nlinarith [hdisk]
        · constructor
          · have : ((((x : ℤ) + dx).toNat : ℤ)) = (x : ℤ) + dx := by omega
            omega
          · refine ⟨by omega, by omega, by omega⟩
        · have e1 : ((((x : ℤ) + dx).toNat : ℤ) + -dx).toNat = x := by omega
          have e2 : ((((y : ℤ) + dy).toNat : ℤ) + -dy).toNat = y := by omega
          rw [e1, e2, hidiv, Nat.mul_comm]
  · intro scan hscan
    funext i
    rw [show dilationPass w h radius data scan i
        = (scan.foldl (fun out p =>
            if data ((p.2 * w + p.1) * 4) = 0 then writeKernelAt w h radius p.1 p.2 out
            else out) data) i from rfl,
      show applyDilation w h radius data i
        = ((scanOrder w h).foldl (fun out p =>
            if data ((p.2 * w + p.1) * 4) = 0 then writeKernelAt w h radius p.1 p.2 out
            else out) data) i from rfl,
      dilationPass_foldl_apply, dilationPass_foldl_apply]
    refine if_congr ?_ rfl rfl
    constructor
    · rintro ⟨p, hp, hcp⟩
      exact ⟨p, (mem_scanOrder w h p).mpr ((hscan p).mp hp), hcp⟩
    · rintro ⟨p, hp, hcp⟩
      exact ⟨p, (hscan p).mpr ((mem_scanOrder w h p).mp hp), hcp⟩

theorem c4_witness :
    applyDilation 3 3 1 oneBlack ((0 * 3 + 1) * 4) = 0 :=
  ((c4_applyDilation_disk 3 3 1 oneBlack 1 0 (by decide) (by decide) (by decide)).1).mpr
    ⟨0, 1, by decide, by decide, by decide, by decide, by decide, by decide⟩

theorem handleStart_counters (s : EditorState) (e : PointerEv) :
    (handleStart s e).notifyCount = s.notifyCount
    ∧ (handleStart s e).strokeCalls = s.strokeCalls := by
  unfold handleStart
  split_ifs <;> exact ⟨rfl, rfl⟩

theorem handleMove_counters (s : EditorState) (e : PointerEv) :
    (handleMove s e).notifyCount = s.notifyCount
    ∧ (handleMove s e).fillCalls = s.fillCalls := by
  unfold handleMove
  split_ifs <;> exact ⟨rfl, rfl⟩

/-- C9 (amended): the content-changed notification fires on every
interaction-end whatsoever: over any event sequence the number of
notifications equals the number of interaction-end events, whether or not
the interaction was a stroke or a fill and whether or not any pixel
changed. -/
theorem c9_notify_on_every_interaction_end_amended :
    ∀ (s : EditorState) (evs : List InputEv),
      (runEvents s evs).notifyCount = s.notifyCount + (evs.filter isFinish).length := by
  intro s evs
  induction evs generalizing s with
  | nil => rfl
  | cons ev evs ih =>
    have hstep : runEvents s (ev :: evs) = runEvents (stepEvent s ev) evs := rfl
    rw [hstep, ih]
    cases ev with
    | start e =>
      rw [show stepEvent s (InputEv.start e) = handleStart s e from rfl,
        (handleStart_counters s e).1]
      simp [isFinish]
    | move e =>
      rw [show stepEvent s (InputEv.move e) = handleMove s e from rfl,
        (handleMove_counters s e).1]
      simp [isFinish]
    | finish =>
      rw [show stepEvent s InputEv.finish = handleEnd s from rfl]
      have : (handleEnd s).notifyCount = s.notifyCount + 1 := rfl
      rw [this]
      simp [isFinish]
      omega

/-- C9 counterexample: a pure pan interaction (pan mode, start then end)
performs no stroke and no fill and changes no pixel, yet the persistence
notification still fires on the interaction-end, contradicting the claim
that it is produced after no interaction other than a completed stroke or
fill. -/
theorem c9_pan_interaction_notifies_counterexample :
    (runEvents panState [InputEv.start ⟨0, 5, 5⟩, InputEv.finish]).notifyCount = 1
    ∧ (runEvents panState [InputEv.start ⟨0, 5, 5⟩, InputEv.finish]).surface = panState.surface
    ∧ (runEvents panState [InputEv.start ⟨0, 5, 5⟩, InputEv.finish]).fillCalls = 0
    ∧ (runEvents panState [InputEv.start ⟨0, 5, 5⟩, InputEv.finish]).strokeCalls = 0 :=
  ⟨rfl, rfl, rfl, rfl⟩

/-- C10: an interaction-start carrying the middle button (value 1) begins a
pan drag in every tool mode: the surface and the fill and stroke counters
are untouched by the start and by any subsequent move of that interaction,
and each move translates the pan by exactly the pointer displacement. -/
theorem c10_middle_button_pans_in_every_mode :
    ∀ (s : EditorState) (e e2 : PointerEv), e.button = 1 →
      (handleStart s e).isPanning = true
      ∧ (handleStart s e).surface = s.surface
      ∧ (handleStart s e).fillCalls = s.fillCalls
      ∧ (handleStart s e).strokeCalls = s.strokeCalls
      ∧ (handleMove (handleStart s e) e2).panX = s.panX + (e2.clientX - e.clientX)
      ∧ (handleMove (handleStart s e) e2).panY = s.panY + (e2.clientY - e.clientY)
      ∧ (handleMove (handleStart s e) e2).surface = s.surface
      ∧ (handleMove (handleStart s e) e2).fillCalls = s.fillCalls
      ∧ (handleMove (handleStart s e) e2).strokeCalls = s.strokeCalls
      ∧ (handleMove (handleStart s e) e2).isPanning = true := by
  intro s e e2 hb
  have hcond : s.mode = Mode.pan ∨ e.button = 1 := Or.inr hb
  unfold handleStart
  rw [if_pos hcond]
  have hpx : (handleMove
      { s with isPanning := true
               startPanX := e.clientX - s.panX
               startPanY := e.clientY - s.panY } e2).panX
      = e2.clientX - (e.clientX - s.panX) := rfl
  have hpy : (handleMove
      { s with isPanning := true
               startPanX := e.clientX - s.panX
               startPanY := e.clientY - s.panY } e2).panY
      = e2.clientY - (e.clientY - s.panY) := rfl
  refine ⟨rfl, rfl, rfl, rfl, ?_, ?_, rfl, rfl, rfl, rfl⟩
  · rw [hpx]; ring
  · rw [hpy]; ring

theorem c10_witness :
    (handleStart brushState ⟨1, 7, 8⟩).isPanning = true :=
  (c10_middle_button_pans_in_every_mode brushState ⟨1, 7, 8⟩ ⟨1, 9, 4⟩ rfl).1

/-- C7 (amended): stroke rasterization is not masked by the boundary mask:
a brush or eraser stroke modifies only pixels within half the brush width
of the stroked segment, and the modified set is independent of the
boundary mask, which stroke drawing never consults; in particular a stroke
crossing a boundary pixel does repaint it (see the counterexample), and
the no-leak appearance comes from compositing the outline on top. -/
theorem c7_stroke_unmasked_amended :
    ∀ (w h : ℕ) (d : ℕ → ℕ) (x0 y0 x1 y1 bs : ℚ) (r g b : ℕ) (i : ℕ),
      strokeSegment w h d x0 y0 x1 y1 bs r g b i ≠ d i →
      (i / 4) / w < h
      ∧ distSqToSegment ((i / 4) % w : ℕ) ((i / 4) / w : ℕ) x0 y0 x1 y1
          ≤ (bs / 2) * (bs / 2) := by
  intro w h d x0 y0 x1 y1 bs r g b i hne
  unfold strokeSegment at hne
  by_cases hc : (i / 4) / w < h
      ∧ distSqToSegment ((i / 4) % w : ℕ) ((i / 4) / w : ℕ) x0 y0 x1 y1
          ≤ (bs / 2) * (bs / 2)
  · exact hc
  · rw [if_neg hc] at hne
    exact absurd rfl hne

theorem c7_amended_witness :
    (16 / 4) / 3 < 3
    ∧ distSqToSegment (((16 / 4) % 3 : ℕ) : ℚ) (((16 / 4) / 3 : ℕ) : ℚ) 0 1 2 1
        ≤ ((2 : ℚ) / 2) * (2 / 2) :=
  c7_stroke_unmasked_amended 3 3 whiteSurf 0 1 2 1 2 200 0 0 16 (by
    norm_num [strokeSegment, distSqToSegment, whiteSurf, clamp8])

/-- C7 counterexample: in brush mode, a stroke segment from content point
(0, 1) to (2, 1) with brush width 2 repaints the PaintSurface pixel (1, 1)
from white to the stroke color even though (1, 1) is marked as a boundary
pixel in the boundary mask: stroke rasterization does not leave
boundary-marked pixels unchanged. -/
theorem c7_stroke_paints_boundary_pixel_counterexample :
    (handleMove brushState ⟨0, 2, 1⟩).surface 16 = 200
    ∧ brushState.surface 16 = 255
    ∧ isLineBoundary brushState.lineArt 1 1 = true := by
  refine ⟨?_, rfl, by decide⟩
  have h1 : (handleMove brushState ⟨0, 2, 1⟩).surface
      = strokeSegment 3 3 whiteSurf 0 1 ((2 - 0) / 1) ((1 - 0) / 1) 2 200 0 0 := rfl
  rw [h1]
  norm_num [strokeSegment, distSqToSegment, whiteSurf, clamp8]

theorem bfs_step_eq (ctx : FillCtx) (data : ℕ → ℕ) (tR tG tB : ℕ) (fuel : ℕ)
    (x y : ℤ) (rest : List (ℤ × ℤ)) (visited : Finset ℕ) (acc : List ℕ) :
    bfs ctx data tR tG tB (fuel + 1) ((x, y) :: rest) visited acc =
      if x < 0 ∨ (ctx.width : ℤ) ≤ x ∨ y < 0 ∨ (ctx.height : ℤ) ≤ y then
        bfs ctx data tR tG tB fuel rest visited acc
      else if y.toNat * ctx.width + x.toNat ∈ visited then
        bfs ctx data tR tG tB fuel rest visited acc
      else if isLineBoundary ctx x y then
        bfs ctx data tR tG tB fuel rest (insert (y.toNat * ctx.width + x.toNat) visited) acc
      else if colorMatch data tR tG tB ((y.toNat * ctx.width + x.toNat) * 4) then
        bfs ctx data tR tG tB fuel
          (rest ++ [(x + 1, y), (x - 1, y), (x, y + 1), (x, y - 1)])
          (insert (y.toNat * ctx.width + x.toNat) visited)
          (acc ++ [(y.toNat * ctx.width + x.toNat) * 4])
      else
        bfs ctx data tR tG tB fuel rest (insert (y.toNat * ctx.width + x.toNat) visited) acc :=
  rfl

theorem bfsV_step_eq (ctx : FillCtx) (data : ℕ → ℕ) (tR tG tB : ℕ) (fuel : ℕ)
    (x y : ℤ) (rest : List (ℤ × ℤ)) (visited : Finset ℕ) :
    bfsV ctx data tR tG tB (fuel + 1) ((x, y) :: rest) visited =
      if x < 0 ∨ (ctx.width : ℤ) ≤ x ∨ y < 0 ∨ (ctx.height : ℤ) ≤ y then
        bfsV ctx data tR tG tB fuel rest visited
      else if y.toNat * ctx.width + x.toNat ∈ visited then
        bfsV ctx data tR tG tB fuel rest visited
      else if isLineBoundary ctx x y then
        bfsV ctx data tR tG tB fuel rest (insert (y.toNat * ctx.width + x.toNat) visited)
      else if colorMatch data tR tG tB ((y.toNat * ctx.width + x.toNat) * 4) then
        bfsV ctx data tR tG tB fuel
          (rest ++ [(x + 1, y), (x - 1, y), (x, y + 1), (x, y - 1)])
          (insert (y.toNat * ctx.width + x.toNat) visited)
      else
        bfsV ctx data tR tG tB fuel rest (insert (y.toNat * ctx.width + x.toNat) visited) :=
  rfl

theorem nonBoundary_inB (ctx : FillCtx) (p : ℤ × ℤ) :
    nonBoundary ctx p → inB ctx p := by
  unfold nonBoundary isLineBoundary inB
  intro hfalse
  by_cases hc : p.1 < 0 ∨ (ctx.width : ℤ) ≤ p.1 ∨ p.2 < 0 ∨ (ctx.height : ℤ) ≤ p.2
  · rw [if_pos hc] at hfalse
    exact absurd hfalse (by simp)
  · push_neg at hc
    exact ⟨by omega, by omega, by omega, by omega⟩

theorem goodPix_inB (ctx : FillCtx) (data : ℕ → ℕ) (tR tG tB : ℕ) (p : ℤ × ℤ) :
    goodPix ctx data tR tG tB p → inB ctx p :=
  fun h => nonBoundary_inB ctx p h.1

theorem bfs_sound (ctx : FillCtx) (data : ℕ → ℕ) (tR tG tB : ℕ) (seed : ℤ × ℤ) :
    ∀ (fuel : ℕ) (queue : List (ℤ × ℤ)) (visited : Finset ℕ) (acc : List ℕ),
      (∀ c ∈ queue, ReachVia (goodPix ctx data tR tG tB) seed c) →
      (∀ j ∈ acc, ∃ p, ReachVia (goodPix ctx data tR tG tB) seed p
          ∧ goodPix ctx data tR tG tB p ∧ j = pixPos ctx p) →
      ∀ j ∈ bfs ctx data tR tG tB fuel queue visited acc,
        ∃ p, ReachVia (goodPix ctx data tR tG tB) seed p
          ∧ goodPix ctx data tR tG tB p ∧ j = pixPos ctx p := by
  intro fuel
  induction fuel with
  | zero =>
    intro queue visited acc hq hacc j hj
    cases queue with
    | nil => exact hacc j hj
    | cons c rest => exact hacc j hj
  | succ fuel ih =>
    intro queue visited acc hq hacc j hj
    cases queue with
    | nil => exact hacc j hj
    | cons c rest =>
      obtain ⟨x, y⟩ := c
      rw [bfs_step_eq] at hj
      by_cases h1 : x < 0 ∨ (ctx.width : ℤ) ≤ x ∨ y < 0 ∨ (ctx.height : ℤ) ≤ y
      · rw [if_pos h1] at hj
        exact ih rest visited acc (fun c hc => hq c (List.mem_cons_of_mem _ hc)) hacc j hj
      · rw [if_neg h1] at hj
        by_cases h2 : y.toNat * ctx.width + x.toNat ∈ visited
        · rw [if_pos h2] at hj
          exact ih rest visited acc (fun c hc => hq c (List.mem_cons_of_mem _ hc)) hacc j hj
        · rw [if_neg h2] at hj
          by_cases h3 : isLineBoundary ctx x y = true
          · rw [if_pos h3] at hj
            exact ih rest _ acc (fun c hc => hq c (List.mem_cons_of_mem _ hc)) hacc j hj
          · rw [if_neg h3] at hj
            by_cases h4 : colorMatch data tR tG tB ((y.toNat * ctx.width + x.toNat) * 4)
            · rw [if_pos h4] at hj
              have hgood : goodPix ctx data tR tG tB (x, y) :=
                ⟨Bool.not_eq_true _ ▸ (Bool.eq_false_iff.mpr h3), h4⟩
              have hreach : ReachVia (goodPix ctx data tR tG tB) seed (x, y) :=
                hq (x, y) (List.mem_cons_self _ _)
              refine ih _ _ _ ?_ ?_ j hj
              · intro c hc
                rcases List.mem_append.mp hc with hcr | hcn
                · exact hq c (List.mem_cons_of_mem _ hcr)
                · have hadj : adjacent (x, y) c := by
                    unfold adjacent
                    simp only [List.mem_cons, List.not_mem_nil, or_false] at hcn
                    simpa using hcn
                  exact ReachVia.step hreach hgood hadj
              · intro j' hj'
                rcases List.mem_append.mp hj' with hja | hjn
                · exact hacc j' hja
                · simp only [List.mem_cons, List.not_mem_nil, or_false] at hjn
                  exact ⟨(x, y), hreach, hgood, hjn⟩
            · rw [if_neg h4] at hj
              exact ih rest _ acc (fun c hc => hq c (List.mem_cons_of_mem _ hc)) hacc j hj

theorem bfsV_mono (ctx : FillCtx) (data : ℕ → ℕ) (tR tG tB : ℕ) :
    ∀ (fuel : ℕ) (queue : List (ℤ × ℤ)) (visited : Finset ℕ),
      visited ⊆ bfsV ctx data tR tG tB fuel queue visited := by
  intro fuel
  induction fuel with
  | zero =>
    intro queue visited
    cases queue with
    | nil => exact Finset.Subset.refl _
    | cons c rest => exact Finset.Subset.refl _
  | succ fuel ih =>
    intro queue visited
    cases queue with
    | nil => exact Finset.Subset.refl _
    | cons c rest =>
      obtain ⟨x, y⟩ := c
      rw [bfsV_step_eq]
      split_ifs
      · exact ih rest visited
      · exact ih rest visited
      · exact (Finset.subset_insert _ _).trans (ih rest _)
      · exact (Finset.subset_insert _ _).trans (ih _ _)
      · exact (Finset.subset_insert _ _).trans (ih rest _)

theorem bfs_acc_mono (ctx : FillCtx) (data : ℕ → ℕ) (tR tG tB : ℕ) :
    ∀ (fuel : ℕ) (queue : List (ℤ × ℤ)) (visited : Finset ℕ) (acc : List ℕ),
      ∀ j ∈ acc, j ∈ bfs ctx data tR tG tB fuel queue visited acc := by
  intro fuel
  induction fuel with
  | zero =>
    intro queue visited acc j hj
    cases queue with
    | nil => exact hj
    | cons c rest => exact hj
  | succ fuel ih =>
    intro queue visited acc j hj
    cases queue with
    | nil => exact hj
    | cons c rest =>
      obtain ⟨x, y⟩ := c
      rw [bfs_step_eq]
      split_ifs
      · exact ih rest visited acc j hj
      · exact ih rest visited acc j hj
      · exact ih rest _ acc j hj
      · exact ih _ _ _ j (List.mem_append_left _ hj)
      · exact ih rest _ acc j hj

theorem inB_of_not_oob (ctx : FillCtx) (x y : ℤ)
    (h : ¬ (x < 0 ∨ (ctx.width : ℤ) ≤ x ∨ y < 0 ∨ (ctx.height : ℤ) ≤ y)) :
    inB ctx (x, y) := by
  push_neg at h
  exact ⟨by omega, by omega, by omega, by omega⟩

theorem pixIdx_lt (ctx : FillCtx) (p : ℤ × ℤ) (hp : inB ctx p) :
    pixIdx ctx p < ctx.width * ctx.height := by
  obtain ⟨h1, h2, h3, h4⟩ := hp
  have hx : p.1.toNat < ctx.width := by omega
  have hy : p.2.toNat < ctx.height := by omega
  unfold pixIdx
  calc p.2.toNat * ctx.width + p.1.toNat
      < (p.2.toNat + 1) * ctx.width := by rw [Nat.succ_mul]; omega
    _ ≤ ctx.height * ctx.width := Nat.mul_le_mul_right _ (by omega)
    _ = ctx.width * ctx.height := Nat.mul_comm _ _

theorem pixIdx_inj (ctx : FillCtx) {p q : ℤ × ℤ} (hp : inB ctx p) (hq : inB ctx q)
    (he : pixIdx ctx p = pixIdx ctx q) : p = q := by
  obtain ⟨p1, p2⟩ := p
  obtain ⟨q1, q2⟩ := q
  obtain ⟨hp1, hp2, hp3, hp4⟩ := hp
  obtain ⟨hq1, hq2, hq3, hq4⟩ := hq
  simp only at hp1 hp2 hp3 hp4 hq1 hq2 hq3 hq4
  unfold pixIdx at he
  simp only at he
  have h1 : p1.toNat < ctx.width := by omega
  have h2 : q1.toNat < ctx.width := by omega
  obtain ⟨hx, hy⟩ := rowmajor_inj h1 h2 he
  rw [Prod.mk.injEq]
  exact ⟨by omega, by omega⟩

theorem unvis_insert_lt (ctx : FillCtx) (visited : Finset ℕ) (idx : ℕ)
    (hlt : idx < ctx.width * ctx.height) (hnm : idx ∉ visited) :
    unvis ctx (insert idx visited) < unvis ctx visited := by
  unfold unvis
  have h1 : (Finset.range (ctx.width * ctx.height)).filter (fun i => i ∉ insert idx visited)
      ⊆ (Finset.range (ctx.width * ctx.height)).filter (fun i => i ∉ visited) := by
    intro i hi
    simp only [Finset.mem_filter, Finset.mem_insert] at hi ⊢
    exact ⟨hi.1, fun hv => hi.2 (Or.inr hv)⟩
  have h2 : idx ∈ (Finset.range (ctx.width * ctx.height)).filter (fun i => i ∉ visited) := by
    simp [hlt, hnm]
  have h3 : idx ∉ (Finset.range (ctx.width * ctx.height)).filter
      (fun i => i ∉ insert idx visited) := by
    simp
  exact Finset.card_lt_card (Finset.ssubset_iff_subset_ne.mpr
    ⟨h1, fun he => h3 (he ▸ h2)⟩)

theorem bfsV_exhausts (ctx : FillCtx) (data : ℕ → ℕ) (tR tG tB : ℕ) :
    ∀ (fuel : ℕ) (queue : List (ℤ × ℤ)) (visited : Finset ℕ),
      queue.length + 5 * unvis ctx visited ≤ fuel →
      ∀ c ∈ queue, inB ctx c → pixIdx ctx c ∈ bfsV ctx data tR tG tB fuel queue visited := by
  intro fuel
  induction fuel with
  | zero =>
    intro queue visited hfuel c hc hcin
    have : queue.length = 0 := by omega
    rw [List.length_eq_zero] at this
    subst this
    exact absurd hc (List.not_mem_nil _)
  | succ fuel ih =>
    intro queue visited hfuel c hc hcin
    cases queue with
    | nil => exact absurd hc (List.not_mem_nil _)
    | cons hd rest =>
      obtain ⟨x, y⟩ := hd
      rw [bfsV_step_eq]
      by_cases h1 : x < 0 ∨ (ctx.width : ℤ) ≤ x ∨ y < 0 ∨ (ctx.height : ℤ) ≤ y
      · rw [if_pos h1]
        rcases List.mem_cons.mp hc with rfl | hcr
        · obtain ⟨ha, hb, hc2, hd2⟩ := hcin
          simp only at ha hb hc2 hd2
          exact absurd h1 (by push_neg; exact ⟨ha, hb, hc2, hd2⟩)
        · refine ih rest visited ?_ c hcr hcin
          simp only [List.length_cons] at hfuel
          omega
      · rw [if_neg h1]
        have hin : inB ctx (x, y) := inB_of_not_oob ctx x y h1
        have hidx : y.toNat * ctx.width + x.toNat < ctx.width * ctx.height :=
          pixIdx_lt ctx (x, y) hin
        by_cases h2 : y.toNat * ctx.width + x.toNat ∈ visited
        · rw [if_pos h2]
          rcases List.mem_cons.mp hc with rfl | hcr
          · exact bfsV_mono ctx data tR tG tB fuel rest visited h2
          · refine ih rest visited ?_ c hcr hcin
            simp only [List.length_cons] at hfuel
            omega
        · rw [if_neg h2]
          have hdec : unvis ctx (insert (y.toNat * ctx.width + x.toNat) visited)
              < unvis ctx visited := unvis_insert_lt ctx visited _ hidx h2
          by_cases h3 : isLineBoundary ctx x y = true
          · rw [if_pos h3]
            rcases List.mem_cons.mp hc with rfl | hcr
            · exact bfsV_mono ctx data tR tG tB fuel rest _
                (Finset.mem_insert_self _ _)
            · refine ih rest _ ?_ c hcr hcin
              simp only [List.length_cons] at hfuel
              omega
          · rw [if_neg h3]
            by_cases h4 : colorMatch data tR tG tB ((y.toNat * ctx.width + x.toNat) * 4)
            · rw [if_pos h4]
              rcases List.mem_cons.mp hc with rfl | hcr
              · exact bfsV_mono ctx data tR tG tB fuel _ _
                  (Finset.mem_insert_self _ _)
              · refine ih _ _ ?_ c (List.mem_append_left _ hcr) hcin
                simp only [List.length_cons, List.length_append] at hfuel ⊢
                simp only [List.length_cons, List.length_nil]
                omega
            · rw [if_neg h4]
              rcases List.mem_cons.mp hc with rfl | hcr
              · exact bfsV_mono ctx data tR tG tB fuel rest _
                  (Finset.mem_insert_self _ _)
              · refine ih rest _ ?_ c hcr hcin
                simp only [List.length_cons] at hfuel
                omega

theorem bfsV_closed (ctx : FillCtx) (data : ℕ → ℕ) (tR tG tB : ℕ) :
    ∀ (fuel : ℕ) (queue : List (ℤ × ℤ)) (visited : Finset ℕ),
      queue.length + 5 * unvis ctx visited ≤ fuel →
      (∀ p, inB ctx p → pixIdx ctx p ∈ visited → goodPix ctx data tR tG tB p →
        ∀ q, adjacent p q → inB ctx q → (q ∈ queue ∨ pixIdx ctx q ∈ visited)) →
      ∀ p, inB ctx p → pixIdx ctx p ∈ bfsV ctx data tR tG tB fuel queue visited →
        goodPix ctx data tR tG tB p →
        ∀ q, adjacent p q → inB ctx q →
          pixIdx ctx q ∈ bfsV ctx data tR tG tB fuel queue visited := by
  intro fuel
  induction fuel with
  | zero =>
    intro queue visited hfuel hinv p hpin hmem hgood q hadj hqin
    have hq0 : queue.length = 0 := by omega
    rw [List.length_eq_zero] at hq0
    subst hq0
    rcases hinv p hpin hmem hgood q hadj hqin with hcontra | hvis
    · exact absurd hcontra (List.not_mem_nil _)
    · exact hvis
  | succ fuel ih =>
    intro queue visited hfuel hinv p hpin hmem hgood q hadj hqin
    cases queue with
    | nil =>
      rcases hinv p hpin hmem hgood q hadj hqin with hcontra | hvis
      · exact absurd hcontra (List.not_mem_nil _)
      · exact hvis
    | cons hd rest =>
      obtain ⟨x, y⟩ := hd
      rw [bfsV_step_eq] at hmem ⊢
      simp only [List.length_cons] at hfuel
      by_cases h1 : x < 0 ∨ (ctx.width : ℤ) ≤ x ∨ y < 0 ∨ (ctx.height : ℤ) ≤ y
      · rw [if_pos h1] at hmem ⊢
        refine ih rest visited (by omega) ?_ p hpin hmem hgood q hadj hqin
        intro p' hp'in hp'mem hp'good q' hadj' hq'in
        rcases hinv p' hp'in hp'mem hp'good q' hadj' hq'in with hq' | hvis
        · rcases List.mem_cons.mp hq' with rfl | hq'r
          · exact absurd h1 (by
              obtain ⟨ha, hb, hc, hd2⟩ := hq'in
              push_neg
              exact ⟨ha, hb, hc, hd2⟩)
          · exact Or.inl hq'r
        · exact Or.inr hvis
      · rw [if_neg h1] at hmem ⊢
        have hinxy : inB ctx (x, y) := inB_of_not_oob ctx x y h1
        have hidxlt : y.toNat * ctx.width + x.toNat < ctx.width * ctx.height :=
          pixIdx_lt ctx (x, y) hinxy
        by_cases h2 : y.toNat * ctx.width + x.toNat ∈ visited
        · rw [if_pos h2] at hmem ⊢
          refine ih rest visited (by omega) ?_ p hpin hmem hgood q hadj hqin
          intro p' hp'in hp'mem hp'good q' hadj' hq'in
          rcases hinv p' hp'in hp'mem hp'good q' hadj' hq'in with hq' | hvis
          · rcases List.mem_cons.mp hq' with rfl | hq'r
            · exact Or.inr h2
            · exact Or.inl hq'r
          · exact Or.inr hvis
        · rw [if_neg h2] at hmem ⊢
          have hdec : unvis ctx (insert (y.toNat * ctx.width + x.toNat) visited)
              < unvis ctx visited := unvis_insert_lt ctx visited _ hidxlt h2
          by_cases h3 : isLineBoundary ctx x y = true
          · rw [if_pos h3] at hmem ⊢
            refine ih rest _ (by omega) ?_ p hpin hmem hgood q hadj hqin
            intro p' hp'in hp'mem hp'good q' hadj' hq'in
            rcases Finset.mem_insert.mp hp'mem with hnew | hold
            · have : p' = (x, y) := pixIdx_inj ctx hp'in hinxy hnew
              subst this
              exact absurd hp'good.1 (by rw [h3]; simp)
            · rcases hinv p' hp'in hold hp'good q' hadj' hq'in with hq' | hvis
              · rcases List.mem_cons.mp hq' with rfl | hq'r
                · exact Or.inr (Finset.mem_insert_self _ _)
                · exact Or.inl hq'r
              · exact Or.inr (Finset.mem_insert_of_mem hvis)
          · rw [if_neg h3] at hmem ⊢
            by_cases h4 : colorMatch data tR tG tB ((y.toNat * ctx.width + x.toNat) * 4)
            · rw [if_pos h4] at hmem ⊢
              refine ih _ _ ?_ ?_ p hpin hmem hgood q hadj hqin
              · simp only [List.length_append, List.length_cons, List.length_nil]
                omega
              · intro p' hp'in hp'mem hp'good q' hadj' hq'in
                rcases Finset.mem_insert.mp hp'mem with hnew | hold
                · have : p' = (x, y) := pixIdx_inj ctx hp'in hinxy hnew
                  subst this
                  refine Or.inl (List.mem_append_right _ ?_)
                  rcases hadj' with h | h | h | h <;> simp [h]
                · rcases hinv p' hp'in hold hp'good q' hadj' hq'in with hq' | hvis
                  · rcases List.mem_cons.mp hq' with rfl | hq'r
                    · exact Or.inr (Finset.mem_insert_self _ _)
                    · exact Or.inl (List.mem_append_left _ hq'r)
                  · exact Or.inr (Finset.mem_insert_of_mem hvis)
            · rw [if_neg h4] at hmem ⊢
              refine ih rest _ (by omega) ?_ p hpin hmem hgood q hadj hqin
              intro p' hp'in hp'mem hp'good q' hadj' hq'in
              rcases Finset.mem_insert.mp hp'mem with hnew | hold
              · have : p' = (x, y) := pixIdx_inj ctx hp'in hinxy hnew
                subst this
                exact absurd hp'good.2 h4
              · rcases hinv p' hp'in hold hp'good q' hadj' hq'in with hq' | hvis
                · rcases List.mem_cons.mp hq' with rfl | hq'r
                  · exact Or.inr (Finset.mem_insert_self _ _)
                  · exact Or.inl hq'r
                · exact Or.inr (Finset.mem_insert_of_mem hvis)

theorem bfs_completes_acc (ctx : FillCtx) (data : ℕ → ℕ) (tR tG tB : ℕ) :
    ∀ (fuel : ℕ) (queue : List (ℤ × ℤ)) (visited : Finset ℕ) (acc : List ℕ),
      queue.length + 5 * unvis ctx visited ≤ fuel →
      (∀ p, inB ctx p → pixIdx ctx p ∈ visited → goodPix ctx data tR tG tB p →
        pixPos ctx p ∈ acc) →
      ∀ p, inB ctx p → pixIdx ctx p ∈ bfsV ctx data tR tG tB fuel queue visited →
        goodPix ctx data tR tG tB p →
        pixPos ctx p ∈ bfs ctx data tR tG tB fuel queue visited acc := by
  intro fuel
  induction fuel with
  | zero =>
    intro queue visited acc hfuel hinv p hpin hmem hgood
    have hq0 : queue.length = 0 := by omega
    rw [List.length_eq_zero] at hq0
    subst hq0
    exact hinv p hpin hmem hgood
  | succ fuel ih =>
    intro queue visited acc hfuel hinv p hpin hmem hgood
    cases queue with
    | nil => exact hinv p hpin hmem hgood
    | cons hd rest =>
      obtain ⟨x, y⟩ := hd
      rw [bfsV_step_eq] at hmem
      rw [bfs_step_eq]
      simp only [List.length_cons] at hfuel
      by_cases h1 : x < 0 ∨ (ctx.width : ℤ) ≤ x ∨ y < 0 ∨ (ctx.height : ℤ) ≤ y
      · rw [if_pos h1] at hmem ⊢
        exact ih rest visited acc (by omega) hinv p hpin hmem hgood
      · rw [if_neg h1] at hmem ⊢
        have hinxy : inB ctx (x, y) := inB_of_not_oob ctx x y h1
        have hidxlt : y.toNat * ctx.width + x.toNat < ctx.width * ctx.height :=
          pixIdx_lt ctx (x, y) hinxy
        by_cases h2 : y.toNat * ctx.width + x.toNat ∈ visited
        · rw [if_pos h2] at hmem ⊢
          exact ih rest visited acc (by omega) hinv p hpin hmem hgood
        · rw [if_neg h2] at hmem ⊢
          have hdec : unvis ctx (insert (y.toNat * ctx.width + x.toNat) visited)
              < unvis ctx visited := unvis_insert_lt ctx visited _ hidxlt h2
          by_cases h3 : isLineBoundary ctx x y = true
          · rw [if_pos h3] at hmem ⊢
            refine ih rest _ acc (by omega) ?_ p hpin hmem hgood
            intro p' hp'in hp'mem hp'good
            rcases Finset.mem_insert.mp hp'mem with hnew | hold
            · have : p' = (x, y) := pixIdx_inj ctx hp'in hinxy hnew
              subst this
              exact absurd hp'good.1 (by rw [h3]; simp)
            · exact hinv p' hp'in hold hp'good
          · rw [if_neg h3] at hmem ⊢
            by_cases h4 : colorMatch data tR tG tB ((y.toNat * ctx.width + x.toNat) * 4)
            · rw [if_pos h4] at hmem ⊢
              refine ih _ _ _ ?_ ?_ p hpin hmem hgood
              · simp only [List.length_append, List.length_cons, List.length_nil]
                omega
              · intro p' hp'in hp'mem hp'good
                rcases Finset.mem_insert.mp hp'mem with hnew | hold
                · have : p' = (x, y) := pixIdx_inj ctx hp'in hinxy hnew
                  subst this
                  exact List.mem_append_right _ (by simp [pixPos, pixIdx])
                · exact List.mem_append_left _ (hinv p' hp'in hold hp'good)
            · rw [if_neg h4] at hmem ⊢
              refine ih rest _ acc (by omega) ?_ p hpin hmem hgood
              intro p' hp'in hp'mem hp'good
              rcases Finset.mem_insert.mp hp'mem with hnew | hold
              · have : p' = (x, y) := pixIdx_inj ctx hp'in hinxy hnew
                subst this
                exact absurd hp'good.2 h4
              · exact hinv p' hp'in hold hp'good

theorem ReachVia_mono {g1 g2 : ℤ × ℤ → Prop} (hmono : ∀ p, g1 p → g2 p)
    {seed p : ℤ × ℤ} (hr : ReachVia g1 seed p) : ReachVia g2 seed p := by
  induction hr with
  | refl => exact ReachVia.refl
  | step hp hg hadj ih => exact ReachVia.step ih (hmono _ hg) hadj

theorem unvis_empty (ctx : FillCtx) : unvis ctx ∅ = ctx.width * ctx.height := by
  unfold unvis
  simp

/-- Every pixel reachable from the seed through accepted pixels, and itself
accepted, ends up visited by the traversal started on the seed alone. -/
theorem reach_visited (ctx : FillCtx) (data : ℕ → ℕ) (tR tG tB : ℕ) (seed : ℤ × ℤ) :
    ∀ p, ReachVia (goodPix ctx data tR tG tB) seed p →
      goodPix ctx data tR tG tB p →
      pixIdx ctx p ∈ bfsV ctx data tR tG tB (fillFuel ctx) [seed] ∅ := by
  have hfuel : ([seed] : List (ℤ × ℤ)).length + 5 * unvis ctx ∅ ≤ fillFuel ctx := by
    rw [unvis_empty]
    simp [fillFuel]
  have hinv : ∀ p, inB ctx p → pixIdx ctx p ∈ (∅ : Finset ℕ) →
      goodPix ctx data tR tG tB p →
      ∀ q, adjacent p q → inB ctx q → (q ∈ [seed] ∨ pixIdx ctx q ∈ (∅ : Finset ℕ)) := by
    intro p _ hmem
    exact absurd hmem (Finset.not_mem_empty _)
  intro p hreach
  induction hreach with
  | refl =>
    intro hgood
    exact bfsV_exhausts ctx data tR tG tB (fillFuel ctx) [seed] ∅ hfuel seed
      (List.mem_singleton_self _) (goodPix_inB ctx data tR tG tB _ hgood)
  | step hp hgp hadj ih =>
    intro hgq
    exact bfsV_closed ctx data tR tG tB (fillFuel ctx) [seed] ∅ hfuel hinv _
      (goodPix_inB ctx data tR tG tB _ hgp) (ih hgp) hgp _ hadj
      (goodPix_inB ctx data tR tG tB _ hgq)

/-- C2: the fill set computed by the worklist traversal of floodFill
contains a flat position exactly when it is the position of a pixel
reachable from the seed by a 4-connected chain of accepted pixels and
itself accepted, where a pixel is accepted exactly when it is not a
boundary pixel (being in bounds) and each of its R, G and B channels
differs from the corresponding channel of the pre-fill seed color by at
most the tolerance 32 in absolute value, the alpha channel excluded; the
dense visited set makes each pixel enter the set at most once. -/
theorem c2_fill_set_characterization :
    ∀ (ctx : FillCtx) (data : ℕ → ℕ) (sx sy : ℤ) (j : ℕ),
      j ∈ fillPixels ctx data sx sy ↔
        ∃ p : ℤ × ℤ,
          ReachVia (goodPix ctx data
              (data ((sy.toNat * ctx.width + sx.toNat) * 4))
              (data ((sy.toNat * ctx.width + sx.toNat) * 4 + 1))
              (data ((sy.toNat * ctx.width + sx.toNat) * 4 + 2)))
            (sx, sy) p
          ∧ goodPix ctx data
              (data ((sy.toNat * ctx.width + sx.toNat) * 4))
              (data ((sy.toNat * ctx.width + sx.toNat) * 4 + 1))
              (data ((sy.toNat * ctx.width + sx.toNat) * 4 + 2)) p
          ∧ j = pixPos ctx p := by
  intro ctx data sx sy j
  have hfuel : ([((sx : ℤ), (sy : ℤ))] : List (ℤ × ℤ)).length + 5 * unvis ctx ∅
      ≤ fillFuel ctx := by
    rw [unvis_empty]
    simp [fillFuel]
  constructor
  · intro hj
    refine bfs_sound ctx data
      (data ((sy.toNat * ctx.width + sx.toNat) * 4))
      (data ((sy.toNat * ctx.width + sx.toNat) * 4 + 1))
      (data ((sy.toNat * ctx.width + sx.toNat) * 4 + 2))
      (sx, sy) (fillFuel ctx) [(sx, sy)] ∅ [] ?_ ?_ j hj
    · intro c hc
      rw [List.mem_singleton] at hc
      subst hc
      exact ReachVia.refl
    · intro j' hj'
      exact absurd hj' (List.not_mem_nil _)
  · rintro ⟨p, hreach, hgood, rfl⟩
    refine bfs_completes_acc ctx data
      (data ((sy.toNat * ctx.width + sx.toNat) * 4))
      (data ((sy.toNat * ctx.width + sx.toNat) * 4 + 1))
      (data ((sy.toNat * ctx.width + sx.toNat) * 4 + 2))
      (fillFuel ctx) [(sx, sy)] ∅ [] hfuel ?_ p
      (goodPix_inB _ _ _ _ _ _ hgood) ?_ hgood
    · intro p' _ hmem _
      exact absurd hmem (Finset.not_mem_empty _)
    · exact reach_visited ctx data _ _ _ (sx, sy) p hreach hgood

theorem fillWrite_foldl_apply (fR fG fB : ℕ) (L : List ℕ) (d : ℕ → ℕ)
    (hL : ∀ j ∈ L, j % 4 = 0) (i : ℕ) :
    (L.foldl (fun d pos => stamp (clamp8 fR) (clamp8 fG) (clamp8 fB) 255 pos d) d) i =
    if 4 * (i / 4) ∈ L then
      (if i % 4 = 0 then clamp8 fR else if i % 4 = 1 then clamp8 fG
       else if i % 4 = 2 then clamp8 fB else 255)
    else d i := by
  induction L generalizing d with
  | nil => simp
  | cons a L ih =>
    rw [List.foldl_cons, ih _ (fun j hj => hL j (List.mem_cons_of_mem a hj))]
    by_cases hmem : 4 * (i / 4) ∈ L
    · rw [if_pos hmem, if_pos (List.mem_cons_of_mem a hmem)]
    · rw [if_neg hmem,
        stamp_apply _ _ _ _ _ _ (hL a (List.mem_cons_self a L)) i]
      by_cases hai : 4 * (i / 4) = a
      · rw [if_pos hai, if_pos (List.mem_cons.mpr (Or.inl hai))]
      · rw [if_neg hai, if_neg ?_]
        intro hc
        rcases List.mem_cons.mp hc with he | hm
        · exact hai he
        · exact hmem hm

/-- C1: every pixel whose color floodFill modifies is inside the surface
bounds, is not a boundary pixel, and is reachable from the seed by a
4-connected path of non-boundary pixels; a fill whose seed is a boundary
pixel modifies nothing, and out-of-range coordinates are treated as
boundary (so an out-of-range seed also modifies nothing), never as a
fault. -/
theorem c1_flood_fill_containment :
    (∀ (ctx : FillCtx) (data : ℕ → ℕ) (sx sy : ℤ) (fR fG fB : ℕ) (i : ℕ),
      floodFill ctx data sx sy fR fG fB i ≠ data i →
      ∃ p : ℤ × ℤ, inB ctx p ∧ nonBoundary ctx p
        ∧ ReachVia (nonBoundary ctx) (sx, sy) p ∧ 4 * (i / 4) = pixPos ctx p)
    ∧ (∀ (ctx : FillCtx) (data : ℕ → ℕ) (sx sy : ℤ) (fR fG fB : ℕ),
        isLineBoundary ctx sx sy = true → floodFill ctx data sx sy fR fG fB = data)
    ∧ (∀ (ctx : FillCtx) (x y : ℤ),
        (x < 0 ∨ (ctx.width : ℤ) ≤ x ∨ y < 0 ∨ (ctx.height : ℤ) ≤ y) →
        isLineBoundary ctx x y = true) := by
  refine ⟨?_, ?_, ?_⟩
  · intro ctx data sx sy fR fG fB i hne
    unfold floodFill at hne
    by_cases hb : isLineBoundary ctx sx sy = true
    · rw [if_pos hb] at hne
      exact absurd rfl hne
    · rw [if_neg hb] at hne
      by_cases hexact : data ((sy.toNat * ctx.width + sx.toNat) * 4) = fR
          ∧ data ((sy.toNat * ctx.width + sx.toNat) * 4 + 1) = fG
          ∧ data ((sy.toNat * ctx.width + sx.toNat) * 4 + 2) = fB
          ∧ data ((sy.toNat * ctx.width + sx.toNat) * 4 + 3) = 255
      · rw [if_pos hexact] at hne
        exact absurd rfl hne
      · rw [if_neg hexact] at hne
        by_cases hnil : fillPixels ctx data sx sy = []
        · rw [if_pos hnil] at hne
          exact absurd rfl hne
        · rw [if_neg hnil] at hne
          have hmul : ∀ j ∈ fillPixels ctx data sx sy, j % 4 = 0 := by
            intro j hj
            obtain ⟨p, _, _, rfl⟩ := (c2_fill_set_characterization ctx data sx sy j).mp hj
            exact Nat.mul_mod_left _ 4
          rw [fillWrite_foldl_apply fR fG fB _ data hmul i] at hne
          by_cases hcov : 4 * (i / 4) ∈ fillPixels ctx data sx sy
          · obtain ⟨p, hreach, hgood, hpos⟩ :=
              (c2_fill_set_characterization ctx data sx sy _).mp hcov
            refine ⟨p, goodPix_inB _ _ _ _ _ _ hgood, hgood.1, ?_, hpos⟩
            exact ReachVia_mono (fun p' hp' => hp'.1) hreach
          · rw [if_neg hcov] at hne
            exact absurd rfl hne
  · intro ctx data sx sy fR fG fB hb
    unfold floodFill
    rw [if_pos hb]
  · intro ctx x y hoob
    unfold isLineBoundary
    rw [if_pos hoob]

theorem c1_witness :
    floodFill ctx3 whiteSurf (-1) 0 10 20 30 = whiteSurf :=
  c1_flood_fill_containment.2.1 ctx3 whiteSurf (-1) 0 10 20 30 (by decide)

theorem stampFold_values (fR fG fB : ℕ) (L : List ℕ) (d : ℕ → ℕ)
    (hL : ∀ j ∈ L, j % 4 = 0) (s : ℕ) (hs : s % 4 = 0) (hmem : s ∈ L) :
    (L.foldl (fun d pos => stamp (clamp8 fR) (clamp8 fG) (clamp8 fB) 255 pos d) d) s
        = clamp8 fR
    ∧ (L.foldl (fun d pos => stamp (clamp8 fR) (clamp8 fG) (clamp8 fB) 255 pos d) d) (s + 1)
        = clamp8 fG
    ∧ (L.foldl (fun d pos => stamp (clamp8 fR) (clamp8 fG) (clamp8 fB) 255 pos d) d) (s + 2)
        = clamp8 fB
    ∧ (L.foldl (fun d pos => stamp (clamp8 fR) (clamp8 fG) (clamp8 fB) 255 pos d) d) (s + 3)
        = 255 := by
  obtain ⟨A, rfl⟩ : ∃ A, s = 4 * A := ⟨s / 4, by omega⟩
  have e0 : 4 * ((4 * A) / 4) = 4 * A := by omega
  have e1 : 4 * ((4 * A + 1) / 4) = 4 * A := by omega
  have e2 : 4 * ((4 * A + 2) / 4) = 4 * A := by omega
  have e3 : 4 * ((4 * A + 3) / 4) = 4 * A := by omega
  have m0 : (4 * A) % 4 = 0 := by omega
  have m1 : (4 * A + 1) % 4 = 1 := by omega
  have m2 : (4 * A + 2) % 4 = 2 := by omega
  have m3 : (4 * A + 3) % 4 = 3 := by omega
  refine ⟨?_, ?_, ?_, ?_⟩
  · rw [fillWrite_foldl_apply fR fG fB L d hL _, e0, if_pos hmem, if_pos m0]
  · rw [fillWrite_foldl_apply fR fG fB L d hL _, e1, if_pos hmem,
      if_neg (by omega), if_pos m1]
  · rw [fillWrite_foldl_apply fR fG fB L d hL _, e2, if_pos hmem,
      if_neg (by omega), if_neg (by omega), if_pos m2]
  · rw [fillWrite_foldl_apply fR fG fB L d hL _, e3, if_pos hmem,
      if_neg (by omega), if_neg (by omega), if_neg (by omega)]

/-- C5: flood fill is idempotent: applying the same fill twice in a row
yields the same surface as applying it once (for channel values in the
0 to 255 range that hex parsing produces), and when the seed pixel already
equals the target color exactly with full opacity the fill changes no
pixel at all. -/
theorem c5_flood_fill_idempotent :
    ∀ (ctx : FillCtx) (data : ℕ → ℕ) (sx sy : ℤ) (fR fG fB : ℕ),
      fR ≤ 255 → fG ≤ 255 → fB ≤ 255 →
      floodFill ctx (floodFill ctx data sx sy fR fG fB) sx sy fR fG fB
          = floodFill ctx data sx sy fR fG fB
      ∧ ((data ((sy.toNat * ctx.width + sx.toNat) * 4) = fR
          ∧ data ((sy.toNat * ctx.width + sx.toNat) * 4 + 1) = fG
          ∧ data ((sy.toNat * ctx.width + sx.toNat) * 4 + 2) = fB
          ∧ data ((sy.toNat * ctx.width + sx.toNat) * 4 + 3) = 255) →
        floodFill ctx data sx sy fR fG fB = data) := by
  intro ctx data sx sy fR fG fB hfR hfG hfB
  have hnoop : ∀ dd : ℕ → ℕ,
      dd ((sy.toNat * ctx.width + sx.toNat) * 4) = fR →
      dd ((sy.toNat * ctx.width + sx.toNat) * 4 + 1) = fG →
      dd ((sy.toNat * ctx.width + sx.toNat) * 4 + 2) = fB →
      dd ((sy.toNat * ctx.width + sx.toNat) * 4 + 3) = 255 →
      floodFill ctx dd sx sy fR fG fB = dd := by
    intro dd h0 h1 h2 h3
    unfold floodFill
    by_cases hb : isLineBoundary ctx sx sy = true
    · rw [if_pos hb]
    · rw [if_neg hb, if_pos ⟨h0, h1, h2, h3⟩]
  constructor
  · by_cases hb : isLineBoundary ctx sx sy = true
    · have h1 : ∀ dd : ℕ → ℕ, floodFill ctx dd sx sy fR fG fB = dd := by
        intro dd
        unfold floodFill
        rw [if_pos hb]
      rw [h1, h1]
    · by_cases hexact : data ((sy.toNat * ctx.width + sx.toNat) * 4) = fR
          ∧ data ((sy.toNat * ctx.width + sx.toNat) * 4 + 1) = fG
          ∧ data ((sy.toNat * ctx.width + sx.toNat) * 4 + 2) = fB
          ∧ data ((sy.toNat * ctx.width + sx.toNat) * 4 + 3) = 255
      · have h1 : floodFill ctx data sx sy fR fG fB = data :=
          hnoop data hexact.1 hexact.2.1 hexact.2.2.1 hexact.2.2.2
        rw [h1]
        exact h1
      · have hnb : isLineBoundary ctx sx sy = false := by
          revert hb
          cases isLineBoundary ctx sx sy <;> simp
        have hgoodseed : goodPix ctx data
            (data ((sy.toNat * ctx.width + sx.toNat) * 4))
            (data ((sy.toNat * ctx.width + sx.toNat) * 4 + 1))
            (data ((sy.toNat * ctx.width + sx.toNat) * 4 + 2)) (sx, sy) := by
          refine ⟨hnb, ?_⟩
          unfold colorMatch pixPos pixIdx
          simp
        have hseedmem : (sy.toNat * ctx.width + sx.toNat) * 4 ∈ fillPixels ctx data sx sy :=
          (c2_fill_set_characterization ctx data sx sy _).mpr
            ⟨(sx, sy), ReachVia.refl, hgoodseed, rfl⟩
        have hnil : ¬ fillPixels ctx data sx sy = [] := by
          intro h0
          rw [h0] at hseedmem
          exact List.not_mem_nil _ hseedmem
        have hmul : ∀ j ∈ fillPixels ctx data sx sy, j % 4 = 0 := by
          intro j hj
          obtain ⟨p, _, _, rfl⟩ := (c2_fill_set_characterization ctx data sx sy j).mp hj
          exact Nat.mul_mod_left _ 4
        have h1 : floodFill ctx data sx sy fR fG fB
            = (fillPixels ctx data sx sy).foldl
                (fun d pos => stamp (clamp8 fR) (clamp8 fG) (clamp8 fB) 255 pos d) data := by
          unfold floodFill
          rw [if_neg hb, if_neg hexact, if_neg hnil]
        have hvals := stampFold_values fR fG fB (fillPixels ctx data sx sy) data hmul
          ((sy.toNat * ctx.width + sx.toNat) * 4) (Nat.mul_mod_left _ 4) hseedmem
        refine hnoop (floodFill ctx data sx sy fR fG fB) ?_ ?_ ?_ ?_
        · rw [h1, hvals.1]
          unfold clamp8
          omega
        · rw [h1, hvals.2.1]
          unfold clamp8
          omega
        · rw [h1, hvals.2.2.1]
          unfold clamp8
          omega
        · rw [h1, hvals.2.2.2]
  · intro hexact
    exact hnoop data hexact.1 hexact.2.1 hexact.2.2.1 hexact.2.2.2

theorem c5_witness :
    floodFill ctx3 (floodFill ctx3 whiteSurf 1 1 200 0 0) 1 1 200 0 0
      = floodFill ctx3 whiteSurf 1 1 200 0 0 :=
  (c5_flood_fill_idempotent ctx3 whiteSurf 1 1 200 0 0
    (by decide) (by decide) (by decide)).1

end WebColoring
